import Mathlib

/-!
Verification development for the core of the jieba-rs Chinese word
segmentation engine (src/lib.rs).  Strings are modelled as `List Char`;
byte positions are modelled explicitly through the UTF-8 width of each
character, because the source indexes its DAG and route arrays by byte
offset.  Floating-point log-probabilities are modelled by an arbitrary
integer-valued map `lg : Nat → ℤ` standing for `ln`, so every statement
about the route DP is proved for every such map.
-/

/-- UTF-8 byte width of a character, as produced by Rust `char` encoding. -/
def charWidth (c : Char) : Nat :=
  if c.val < 0x80 then 1
  else if c.val < 0x800 then 2
  else if c.val < 0x10000 then 3
  else 4

/-- Total UTF-8 byte length of a string (`str::len` in Rust). -/
def byteLen (s : List Char) : Nat := (s.map charWidth).sum

@[simp] theorem byteLen_nil : byteLen [] = 0 := rfl

@[simp] theorem byteLen_cons (c : Char) (s : List Char) :
    byteLen (c :: s) = charWidth c + byteLen s := rfl

/-- Drop the characters covered by the first `n` bytes (Rust `&s[n..]`). -/
def dropBytes : Nat → List Char → List Char
  | _, [] => []
  | 0, s => s
  | n, c :: cs => dropBytes (n - charWidth c) cs

/-- Keep the characters covered by the first `n` bytes (Rust `&s[..n]`). -/
def takeBytes : Nat → List Char → List Char
  | _, [] => []
  | 0, _ => []
  | n, c :: cs => c :: takeBytes (n - charWidth c) cs

@[simp] theorem dropBytes_nil (n : Nat) : dropBytes n [] = [] := by cases n <;> rfl

@[simp] theorem takeBytes_nil (n : Nat) : takeBytes n [] = [] := by cases n <;> rfl

@[simp] theorem dropBytes_zero (s : List Char) : dropBytes 0 s = s := by cases s <;> rfl

@[simp] theorem takeBytes_zero (s : List Char) : takeBytes 0 s = [] := by cases s <;> rfl

/-- Rust byte slice `&s[a..b]` (meaningful on char boundaries). -/
def sliceBytes (s : List Char) (a b : Nat) : List Char :=
  takeBytes (b - a) (dropBytes a s)

/-- Byte offsets at which each character of `s` starts
(`str::char_indices`, first components). -/
def charStarts (s : List Char) : List Nat :=
  (List.range s.length).map (fun k => byteLen (s.take k))

@[simp] theorem charStarts_nil : charStarts [] = [] := rfl

/-- Concatenation of a list of words. -/
def joinL : List (List Char) → List Char
  | [] => []
  | w :: ws => w ++ joinL ws

@[simp] theorem joinL_nil : joinL [] = [] := rfl

@[simp] theorem joinL_cons (w : List Char) (ws : List (List Char)) :
    joinL (w :: ws) = w ++ joinL ws := rfl

/-- `w` occurs as a contiguous segment of `s`. -/
def isSubsegment (w s : List Char) : Prop := ∃ a b, s = a ++ w ++ b

/-! ### Character classes used by the splitter regexes -/

/-- Rust `char::is_ascii_alphanumeric`. -/
def isAsciiAlnum (c : Char) : Bool :=
  (('0' ≤ c && c ≤ '9') || ('a' ≤ c && c ≤ 'z') || ('A' ≤ c && c ≤ 'Z'))

/-- Rust `char::is_ascii_digit`. -/
def isAsciiDigit (c : Char) : Bool := ('0' ≤ c && c ≤ '9')

/-- Membership in one of the CJK ranges of `RE_HAN_DEFAULT` / `RE_HAN_CUT_ALL`. -/
def isHanCJK (c : Char) : Bool :=
  let n := c.toNat
  (0x3400 ≤ n && n ≤ 0x4DBF) || (0x4E00 ≤ n && n ≤ 0x9FFF) ||
  (0xF900 ≤ n && n ≤ 0xFAFF) || (0x20000 ≤ n && n ≤ 0x2A6DF) ||
  (0x2A700 ≤ n && n ≤ 0x2B73F) || (0x2B740 ≤ n && n ≤ 0x2B81F) ||
  (0x2B820 ≤ n && n ≤ 0x2CEAF) || (0x2CEB0 ≤ n && n ≤ 0x2EBEF) ||
  (0x2F800 ≤ n && n ≤ 0x2FA1F)

/-- Character class of `RE_HAN_DEFAULT`: CJK ranges, ASCII alphanumerics
and the characters `+ # & . _ %`. -/
def isHanDefault (c : Char) : Bool :=
  isHanCJK c || isAsciiAlnum c ||
  (c == '+' || c == '#' || c == '&' || c == '.' || c == '_' || c == '%')

/-- Character class of `RE_HAN_CUT_ALL`: the CJK ranges only. -/
def isHanCutAll (c : Char) : Bool := isHanCJK c

/-- The Unicode `White_Space` property, which Rust regex `\s` matches. -/
def isUniWhite (c : Char) : Bool :=
  let n := c.toNat
  (0x09 ≤ n && n ≤ 0x0D) || n == 0x20 || n == 0x85 || n == 0xA0 ||
  n == 0x1680 || (0x2000 ≤ n && n ≤ 0x200A) || n == 0x2028 || n == 0x2029 ||
  n == 0x202F || n == 0x205F || n == 0x3000

/-- Character class of `RE_SKIP_CUT_ALL` = `[^a-zA-Z0-9+#\n]`:
true when the character is NOT matched by that regex. -/
def isCutAllKeep (c : Char) : Bool :=
  isAsciiAlnum c || c == '+' || c == '#' || c == '\n'

/-! ### The text splitter (`SplitMatches` over the Han regexes)

`SplitMatches` over `RE_HAN_DEFAULT`/`RE_HAN_CUT_ALL` yields, alternately,
`Matched` blocks (maximal runs of class characters, since the regex is a
character-class `+`) and `Unmatched` gaps.  `splitRuns p s` models this as the
run-decomposition of `s` by the class predicate `p`, each run tagged with its
class value (`true` = `Matched`). -/

def splitRuns (p : Char → Bool) : List Char → List (Bool × List Char)
  | [] => []
  | c :: cs =>
    match splitRuns p cs with
    | [] => [(p c, [c])]
    | (b, r) :: rest => if b = p c then (b, c :: r) :: rest else (p c, [c]) :: (b, r) :: rest

/-! ### The skip splitters inside `Unmatched` gaps

Default mode: `RE_SKIP_DEAFULT = (\r\n|\s)`.  Each regex match is either the
two-character sequence `\r\n` (the alternation tries it first, leftmost-first)
or a single whitespace character; gaps between matches are yielded whole. -/

def splitSkipDefault : List Char → List (Bool × List Char)
  | [] => []
  | [c] => if isUniWhite c then [(true, [c])] else [(false, [c])]
  | c :: d :: cs =>
    if c = '\r' ∧ d = '\n' then (true, ['\r', '\n']) :: splitSkipDefault cs
    else if isUniWhite c then (true, [c]) :: splitSkipDefault (d :: cs)
    else
      match splitSkipDefault (d :: cs) with
      | (false, r) :: rest => (false, c :: r) :: rest
      | l => (false, [c]) :: l

/-- Cut-all mode: `RE_SKIP_CUT_ALL = [^a-zA-Z0-9+#\n]`.  Each match is one
character outside the keep class; gaps are runs of keep characters. -/
def splitSkipCutAll : List Char → List (Bool × List Char)
  | [] => []
  | c :: cs =>
    if ¬ isCutAllKeep c then (true, [c]) :: splitSkipCutAll cs
    else
      match splitSkipCutAll cs with
      | (false, r) :: rest => (false, c :: r) :: rest
      | l => (false, [c]) :: l

/-! ### Dictionary -/

/-- A dictionary record `(word, frequency, tag)` as stored in
`Jieba::records`. -/
abbrev DictRecord := List Char × Nat × List Char

/-- The `Jieba` struct.  The two Aho-Corasick automata are derived data;
their search semantics are modelled directly over `records` below. -/
structure Jieba where
  records : List DictRecord
  total : Nat
  longest_word_len : Nat
deriving DecidableEq

/-- Concatenation of the images of `f` (`Iterator::flat_map`). -/
def catMap (f : α → List β) : List α → List β
  | [] => []
  | a :: l => f a ++ catMap f l

@[simp] theorem catMap_nil (f : α → List β) : catMap f [] = [] := rfl

@[simp] theorem catMap_cons (f : α → List β) (a : α) (l : List α) :
    catMap f (a :: l) = f a ++ catMap f l := rfl

/-! ### Construction (`Jieba::new`)

Each lexicon line is trimmed and split on whitespace; blank lines are
skipped; `parts[1]` is parsed with `parse::<usize>().unwrap()` — an
unparseable frequency PANICS, which the model represents by `none` at the
level of the whole construction; a missing frequency defaults to `0` and a
missing tag to the empty string. -/

/-- Rust `str::split_whitespace` (splits on Unicode whitespace, no empty
tokens). -/
def splitWs : List Char → List (List Char)
  | [] => []
  | c :: cs =>
    if isUniWhite c then splitWs cs
    else
      match cs with
      | [] => [[c]]
      | d :: _ =>
        if isUniWhite d then [c] :: splitWs cs
        else
          match splitWs cs with
          | [] => [[c]]
          | t :: ts => (c :: t) :: ts

/-- Rust `usize::from_str`: an optional `+` sign followed by one or more
ASCII digits, value below `2^64`. -/
def parseDigitsAux : List Char → Nat → Option Nat
  | [], acc => some acc
  | c :: cs, acc =>
    if isAsciiDigit c then parseDigitsAux cs (acc * 10 + (c.toNat - 48)) else none

def parseUsize (w : List Char) : Option Nat :=
  match (match w with | '+' :: rest => rest | _ => w) with
  | [] => none
  | d :: ds =>
    match parseDigitsAux (d :: ds) 0 with
    | none => none
    | some n => if n < 2 ^ 64 then some n else none

/-- Parse one lexicon line.  `none` = the source panics on this line;
`some none` = blank line, skipped; `some (some r)` = record `r`. -/
def parseLine (line : List Char) : Option (Option DictRecord) :=
  match splitWs line with
  | [] => some none
  | w :: rest =>
    match rest with
    | [] => some (some (w, 0, []))
    | f :: rest2 =>
      match parseUsize f with
      | none => none
      | some n => some (some (w, n, rest2.headD []))

/-- `Jieba::new` over a list of lexicon lines.  `none` models the `unwrap`
panic on a malformed frequency.  Note that the source computes the longest
word length into a local variable but stores `0` in the struct
(`longest_word_len: 0`); the model reproduces that. -/
def Jieba.newFromLines (lines : List (List Char)) : Option Jieba :=
  match lines.mapM parseLine with
  | none => none
  | some parsed =>
    let records := parsed.filterMap id
    some { records := records
           total := (records.map (fun r => r.2.1)).sum
           longest_word_len := 0 }

/-- The longest word length that `Jieba::new` computes into its local
variable `longest_word_len` (maximum character count over all words) —
and then fails to store, writing the literal `0` into the struct instead. -/
def localLongestWordLen (records : List DictRecord) : Nat :=
  records.foldl (fun acc r => if acc < r.1.length then r.1.length else acc) 0

/-! ### Aho-Corasick match semantics over `records` -/

/-- The fragment of `s` of `L` characters starting at character index `i`. -/
def fragAt (s : List Char) (i L : Nat) : List Char := (s.drop i).take L

/-- Per-start list of byte ends recorded by `Jieba::dag` from
`find_overlapping_iter`: for character index `i`, every occurrence of a
dictionary word starting there, in ascending end order (ends of longer
words come later in the scan), one entry per matching pattern.  Patterns
are nonempty by construction (`parts[0]` of a nonblank line), which the
enumeration by fragment length `k+1 ≥ 1` reflects. -/
def dagEndsAt (recs : List DictRecord) (s : List Char) (i : Nat) : List Nat :=
  catMap
    (fun k =>
      catMap (fun r => if r.1 = fragAt s i (k + 1)
                       then [byteLen (s.take i) + byteLen (fragAt s i (k + 1))] else [])
        recs)
    (List.range (s.length - i))

/-- Character index whose byte start equals `b`, if any. -/
def charIdxAt (s : List Char) (b : Nat) : Option Nat :=
  (List.range s.length).find? (fun k => byteLen (s.take k) == b)

/-- The DAG built by `Jieba::dag`, as a byte-start-indexed map. -/
def Jieba.dagOf (j : Jieba) (s : List Char) : Nat → List Nat := fun b =>
  match charIdxAt s b with
  | some i => dagEndsAt j.records s i
  | none => []

/-- Index of the first element satisfying `p`, counting from `st`. -/
def findIdxAux (p : α → Bool) : List α → Nat → Option Nat
  | [], _ => none
  | a :: l, st => if p a then some st else findIdxAux p l (st + 1)

/-- Longest dictionary match starting at character index `i` of `s`:
`some (L, id)` where `L` is the largest matching character length and `id`
the smallest matching pattern index for that length. -/
def firstMatchAt (recs : List DictRecord) (s : List Char) (i : Nat) : Option (Nat × Nat) :=
  (List.range (s.length - i)).reverse.findSome? (fun k =>
    match findIdxAux (fun r => r.1 == fragAt s i (k + 1)) recs 0 with
    | some id => some (k + 1, id)
    | none => none)

/-- `AhoCorasick::find` with `MatchKind::LeftmostLongest`: the match with
the smallest start; among those the longest; among duplicates the smallest
pattern index.  Returns `(char start, char length, pattern id)`. -/
def leftmostLongest (recs : List DictRecord) (s : List Char) : Option (Nat × Nat × Nat) :=
  (List.range s.length).findSome? (fun i =>
    (firstMatchAt recs s i).map (fun p => (i, p.1, p.2)))

/-- `Jieba::exact_match_search`: leftmost-longest find, then return the
pattern id iff the match's byte end equals the haystack's byte length. -/
def Jieba.exact_match_search (j : Jieba) (hay : List Char) : Option Nat :=
  match leftmostLongest j.records hay with
  | some (i, L, id) =>
    if byteLen hay = byteLen (hay.take i) + byteLen (fragAt hay i L) then some id else none
  | none => none

/-! ### The route DP (`Jieba::calc`) -/

/-- Total comparison on the score type `ℤ` (the `f64` values in the source
are totally ordered on the reachable inputs;
`partial_cmp(..).unwrap_or(Equal)`). -/
def cmpQ (x y : ℤ) : Ordering := if x < y then .lt else if x = y then .eq else .gt

/-- Comparison on `Nat` (`usize::cmp`). -/
def cmpNat (a b : Nat) : Ordering := if a < b then .lt else if a = b then .eq else .gt

/-- Lexicographic comparison of `(f64, usize)` pairs, as
`PartialOrd::partial_cmp` on Rust tuples. -/
def cmpPair (x y : ℤ × Nat) : Ordering := (cmpQ x.1 y.1).then (cmpNat x.2 y.2)

/-- Rust `Iterator::max_by`: the LAST maximal element of the list. -/
def rustMaxBy (cmp : α → α → Ordering) : List α → Option α
  | [] => none
  | x :: xs => some (xs.foldl (fun acc y => if cmp y acc = .lt then acc else y) x)

/-- Point update of a route array. -/
def updateFn (f : Nat → α) (i : Nat) (v : α) : Nat → α := fun k => if k = i then v else f k

@[simp] theorem updateFn_same (f : Nat → α) (i : Nat) (v : α) : updateFn f i v i = v := by
  simp [updateFn]

/-- Frequency used by `calc` for a DAG fragment: the record's frequency
when `exact_match_search` hits, else `1`. -/
def Jieba.freqIn (j : Jieba) (wfrag : List Char) : Nat :=
  match j.exact_match_search wfrag with
  | some word_id => ((j.records[word_id]?).map (fun r => r.2.1)).getD 0
  | none => 1

/-- One iteration of `calc`'s reverse loop at byte start `b`, with the
fallback byte end `prev` (`prev_byte_start`). -/
def calcStep (j : Jieba) (lg : Nat → ℤ) (s : List Char) (dag : Nat → List Nat)
    (b prev : Nat) (route : Nat → ℤ × Nat) : ℤ × Nat :=
  match rustMaxBy cmpPair ((dag b).map (fun e =>
      (lg (j.freqIn (sliceBytes s b e)) - lg j.total + (route e).1, e))) with
  | some p => p
  | none => (lg 1 - lg j.total + (route prev).1, prev)

/-- The reverse fold of `calc` over the byte starts, threading
`prev_byte_start` and the route array. -/
def calcGo (j : Jieba) (lg : Nat → ℤ) (s : List Char) (dag : Nat → List Nat) :
    List Nat → Nat × (Nat → ℤ × Nat) → Nat × (Nat → ℤ × Nat)
  | [], st => st
  | b :: rest, st =>
    calcGo j lg s dag rest (b, updateFn st.2 b (calcStep j lg s dag b st.1 st.2))

/-- `Jieba::calc` as a byte-indexed route map.  The route vector is resized
with fill `(0.0, 0)` (so `route[byteLen s]` is `(0, 0)`), then each char
start is processed from the end of the block backwards. -/
def Jieba.calcRoute (j : Jieba) (lg : Nat → ℤ) (s : List Char) (dag : Nat → List Nat) :
    Nat → ℤ × Nat :=
  (calcGo j lg s dag ((charStarts s).reverse) (byteLen s, fun _ => (0, 0))).2

/-! ### The route DP as specified (spec §4.4 / claim C1) -/

/-- Next code-point start after byte position `i` (the spec's fallback
target); `byteLen s` when there is none. -/
def nextStart (s : List Char) (i : Nat) : Nat :=
  (((charStarts s).filter (fun b => decide (i < b)))).headD (byteLen s)

/-- The spec's best pair: maximum score, larger byte end on equal scores
(iterating in ascending order with a strict-improvement update). -/
def specBest : List (ℤ × Nat) → Option (ℤ × Nat)
  | [] => none
  | p :: ps =>
    some (ps.foldl
      (fun best q => if best.1 < q.1 ∨ (best.1 = q.1 ∧ best.2 < q.2) then q else best) p)

/-- One step of the spec's backward DP at byte start `i`. -/
def specStep (j : Jieba) (lg : Nat → ℤ) (s : List Char) (dag : Nat → List Nat)
    (i : Nat) (route : Nat → ℤ × Nat) : ℤ × Nat :=
  if dag i = [] then
    (lg 1 - lg j.total + (route (nextStart s i)).1, nextStart s i)
  else
    match specBest ((dag i).map (fun e =>
        (lg (j.freqIn (sliceBytes s i e)) - lg j.total + (route e).1, e))) with
    | some p => p
    | none => (0, 0)

def specGo (j : Jieba) (lg : Nat → ℤ) (s : List Char) (dag : Nat → List Nat) :
    List Nat → (Nat → ℤ × Nat) → (Nat → ℤ × Nat)
  | [], route => route
  | i :: rest, route => specGo j lg s dag rest (updateFn route i (specStep j lg s dag i route))

/-- The backward DP of the spec: `route[L] = (0, L)`, every code-point
start processed in decreasing order. -/
def specRoute (j : Jieba) (lg : Nat → ℤ) (s : List Char) (dag : Nat → List Nat) :
    Nat → ℤ × Nat :=
  specGo j lg s dag ((charStarts s).reverse)
    (updateFn (fun _ => (0, 0)) (byteLen s) (0, byteLen s))

/-! ### Route DP analysis: processing order and fold lemmas -/

/-- The reverse char-start list `[bk (k-1), …, bk 0]` that `calc`'s loop
processes (where `bk i = byteLen (s.take i)`). -/
def rl (s : List Char) (k : Nat) : List Nat :=
  ((List.range k).reverse).map (fun i => byteLen (s.take i))

/-! ### HMM Viterbi (spec §4.5)

Modelled from the spec: the module `hmm.rs` (functions `hmm::cut` and
`hmm::cut_with_allocated_memory` and the embedded parameter tables) is not
under src/; only its call sites are.  Per spec §4.5: four states B/M/E/S,
initial + transition + per-character emission log-probabilities, Viterbi
with final state chosen among {E, S}, word emission closing a segment at
each `E` or `S`, tails emitted as-is. -/

inductive HStat where
  | B | M | E | S
deriving DecidableEq

/-- Modelled from the spec: the embedded HMM parameter tables of `hmm.rs`
(initial, transition and emission log-probabilities). -/
structure HmmParams where
  initLP : HStat → ℤ
  transLP : HStat → HStat → ℤ
  emitLP : HStat → Char → ℤ

def argmaxQ (f : HStat → ℤ) : List HStat → HStat → HStat
  | [], best => best
  | a :: l, best => argmaxQ f l (if f best < f a then a else best)

def vitFold (hp : HmmParams) : List Char → (HStat → ℤ) → List (HStat → HStat) →
    (HStat → ℤ) × List (HStat → HStat)
  | [], V, acc => (V, acc)
  | c :: cs, V, acc =>
    let best : HStat → HStat := fun st =>
      argmaxQ (fun s0 => V s0 + hp.transLP s0 st) [.M, .E, .S] .B
    let Vn : HStat → ℤ := fun st => (V (best st) + hp.transLP (best st) st) + hp.emitLP st c
    vitFold hp cs Vn (best :: acc)

def backtrace : List (HStat → HStat) → HStat → List HStat
  | [], st => [st]
  | f :: fs, st => backtrace fs (f st) ++ [st]

/-- Modelled from the spec: Viterbi decoding of the BMES state path. -/
def viterbiPath (hp : HmmParams) : List Char → List HStat
  | [] => []
  | c :: cs =>
    let pr := vitFold hp cs (fun st => hp.initLP st + hp.emitLP st c) []
    backtrace pr.2 (if pr.1 .E < pr.1 .S then .S else .E)

/-- Modelled from the spec: word emission from the decoded path — a
segment is closed at each `E` or `S`; an unterminated tail is emitted
as-is. -/
def hmmWordsGo : List Char → List HStat → List Char → List (List Char)
  | [], _, pend => if pend.isEmpty then [] else [pend]
  | c :: cs, [], pend => [pend ++ c :: cs]
  | c :: cs, st :: sts, pend =>
    if st = .E ∨ st = .S then (pend ++ [c]) :: hmmWordsGo cs sts []
    else hmmWordsGo cs sts (pend ++ [c])

/-- Modelled from the spec: `hmm::cut` — Viterbi segmentation of an
out-of-vocabulary span. -/
def hmmCut (hp : HmmParams) (w : List Char) : List (List Char) :=
  hmmWordsGo w (viterbiPath hp w) []

/-! ### The cut walks (`cut_dag_no_hmm`, `cut_dag_hmm`) -/

/-- The step word is a single code point that is ASCII alphanumeric
(`l_str.chars().count() == 1 && l_str.chars().all(is_ascii_alphanumeric)`). -/
def isSingleAlnum (w : List Char) : Bool := w.length == 1 && w.all isAsciiAlnum

/-- The `while x < sentence.len()` walk of `cut_dag_no_hmm`, with explicit
fuel for the loop (the route's next pointers are proved to make it
terminate within `s.length` iterations). -/
def walkNoHmm (s : List Char) (route : Nat → ℤ × Nat) :
    Nat → Nat → Option Nat → Option (List (List Char))
  | 0, x, left =>
    if x < byteLen s then none
    else some (match left with | some b => [sliceBytes s b (byteLen s)] | none => [])
  | fuel + 1, x, left =>
    if x < byteLen s then
      if isSingleAlnum (sliceBytes s x (route x).2) then
        walkNoHmm s route fuel (route x).2
          (match left with | none => some x | some b => some b)
      else
        (walkNoHmm s route fuel (route x).2 none).map (fun ws =>
          (match left with | some b => [sliceBytes s b x] | none => []) ++
            sliceBytes s x (route x).2 :: ws)
    else some (match left with | some b => [sliceBytes s b (byteLen s)] | none => [])

/-- The flush of the accumulated `left` span in `cut_dag_hmm`: length-1
spans are emitted; spans that are not exact dictionary words go to the
HMM; dictionary words are emitted code point by code point. -/
def Jieba.flushLeftHmm (j : Jieba) (hp : HmmParams) (s : List Char) (b x : Nat) :
    List (List Char) :=
  if (sliceBytes s b x).length = 1 then [sliceBytes s b x]
  else if (j.exact_match_search (sliceBytes s b x)).isNone then hmmCut hp (sliceBytes s b x)
  else (sliceBytes s b x).map (fun c => [c])

/-- The `while` walk of `cut_dag_hmm`. -/
def Jieba.walkHmm (j : Jieba) (hp : HmmParams) (s : List Char) (route : Nat → ℤ × Nat) :
    Nat → Nat → Option Nat → Option (List (List Char))
  | 0, x, left =>
    if x < byteLen s then none
    else some (match left with | some b => j.flushLeftHmm hp s b (byteLen s) | none => [])
  | fuel + 1, x, left =>
    if x < byteLen s then
      if (sliceBytes s x (route x).2).length = 1 then
        Jieba.walkHmm j hp s route fuel (route x).2
          (match left with | none => some x | some b => some b)
      else
        (Jieba.walkHmm j hp s route fuel (route x).2 none).map (fun ws =>
          (match left with | some b => j.flushLeftHmm hp s b x | none => []) ++
            sliceBytes s x (route x).2 :: ws)
    else some (match left with | some b => j.flushLeftHmm hp s b (byteLen s) | none => [])

/-! ### The orchestrator (`cut_internal` and the public API) -/

def Jieba.cut_all_internal (j : Jieba) (s : List Char) : List (List Char) :=
  catMap (fun b => (j.dagOf s b).map (fun e => sliceBytes s b e)) (charStarts s)

def Jieba.cut_dag_no_hmm (j : Jieba) (lg : Nat → ℤ) (s : List Char) : List (List Char) :=
  (walkNoHmm s (j.calcRoute lg s (j.dagOf s)) s.length 0 none).getD []

def Jieba.cut_dag_hmm (j : Jieba) (lg : Nat → ℤ) (hp : HmmParams) (s : List Char) :
    List (List Char) :=
  (j.walkHmm hp s (j.calcRoute lg s (j.dagOf s)) s.length 0 none).getD []

/-- `Unmatched` gap handling in default mode: skip-regex matches are
emitted verbatim; non-matching remainders are split into code points. -/
def handleUnmatchedDefault (block : List Char) : List (List Char) :=
  catMap (fun q =>
      if q.2.isEmpty then []
      else if q.2.any isUniWhite then [q.2]
      else q.2.map (fun c => [c]))
    (splitSkipDefault block)

/-- `Unmatched` gap handling in cut-all mode: every piece verbatim
(`cut_all ||` short-circuits the skip test). -/
def handleUnmatchedCutAll (block : List Char) : List (List Char) :=
  catMap (fun q => if q.2.isEmpty then [] else [q.2]) (splitSkipCutAll block)

def Jieba.cut_internal (j : Jieba) (lg : Nat → ℤ) (hp : HmmParams)
    (s : List Char) (cutAll hmm : Bool) : List (List Char) :=
  catMap (fun q =>
      if q.1 then
        if cutAll then j.cut_all_internal q.2
        else if hmm then j.cut_dag_hmm lg hp q.2
        else j.cut_dag_no_hmm lg q.2
      else
        if cutAll then handleUnmatchedCutAll q.2 else handleUnmatchedDefault q.2)
    (splitRuns (if cutAll then isHanCutAll else isHanDefault) s)

def Jieba.cut (j : Jieba) (lg : Nat → ℤ) (hp : HmmParams) (s : List Char) (hmm : Bool) :
    List (List Char) :=
  j.cut_internal lg hp s false hmm

def Jieba.cut_all (j : Jieba) (s : List Char) : List (List Char) :=
  j.cut_internal (fun _ => 0) ⟨fun _ => 0, fun _ _ => 0, fun _ _ => 0⟩ s true false

def Jieba.cut_for_search (j : Jieba) (lg : Nat → ℤ) (hp : HmmParams)
    (s : List Char) (hmm : Bool) : List (List Char) :=
  catMap (fun word =>
      (if 2 < word.length then
        (List.range (word.length - 1)).filterMap (fun i =>
          if (j.exact_match_search ((word.drop i).take 2)).isSome
          then some ((word.drop i).take 2) else none)
      else []) ++
      (if 3 < word.length then
        (List.range (word.length - 2)).filterMap (fun i =>
          if (j.exact_match_search ((word.drop i).take 3)).isSome
          then some ((word.drop i).take 3) else none)
      else []) ++ [word])
    (j.cut lg hp s hmm)

inductive TokenizeMode where
  | Default | Search
deriving DecidableEq

/-- A `Token` (word with Unicode code-point start/end positions). -/
structure Token where
  word : List Char
  start : Nat
  endPos : Nat
deriving DecidableEq

def tokenizeGo (j : Jieba) (mode : TokenizeMode) : List (List Char) → Nat → List Token
  | [], _ => []
  | word :: ws, start =>
    (match mode with
     | .Default => [⟨word, start, start + word.length⟩]
     | .Search =>
       (if 2 < word.length then
         (List.range (word.length - 1)).filterMap (fun i =>
           if (j.exact_match_search ((word.drop i).take 2)).isSome
           then some ⟨(word.drop i).take 2, start + i, start + i + 2⟩ else none)
       else []) ++
       (if 3 < word.length then
         (List.range (word.length - 2)).filterMap (fun i =>
           if (j.exact_match_search ((word.drop i).take 3)).isSome
           then some ⟨(word.drop i).take 3, start + i, start + i + 3⟩ else none)
       else []) ++ [⟨word, start, start + word.length⟩]) ++
    tokenizeGo j mode ws (start + word.length)

def Jieba.tokenize (j : Jieba) (lg : Nat → ℤ) (hp : HmmParams)
    (s : List Char) (mode : TokenizeMode) (hmm : Bool) : List Token :=
  tokenizeGo j mode (j.cut lg hp s hmm) 0

def Jieba.tag (j : Jieba) (lg : Nat → ℤ) (hp : HmmParams)
    (s : List Char) (hmm : Bool) : List (List Char × List Char) :=
  (j.cut lg hp s hmm).map (fun word =>
    match j.exact_match_search word with
    | some word_id => (word, ((j.records[word_id]?).map (fun r => r.2.2)).getD [])
    | none =>
      if word.countP (fun c => isAsciiAlnum c) = 0 then (word, ['x'])
      else if word.countP (fun c => isAsciiAlnum c) =
          word.countP (fun c => isAsciiAlnum c && isAsciiDigit c) then (word, ['m'])
      else (word, ['e', 'n', 'g']))

/-! ### Spec-side formulations (state machine, search extras, tags) -/

/-- The step sequence `(x, route[x].next)` obtained by walking the route
from `x` (with fuel). -/
def routeSteps (route : Nat → ℤ × Nat) (L : Nat) : Nat → Nat → List (Nat × Nat)
  | 0, _ => []
  | fuel + 1, x =>
    if x < L then (x, (route x).2) :: routeSteps route L fuel (route x).2 else []

/-- The spec's state machine for the default cut scan (spec §4.6):
`none` = START, `some b` = COLLECTING with span start `b`; a step that is a
single ASCII alphanumeric extends the pending span, any other step
flushes the span and is then emitted; at the end of the block a pending
span is emitted. -/
def specScanNoHmm (s : List Char) : List (Nat × Nat) → Option Nat → List (List Char)
  | [], none => []
  | [], some b => [sliceBytes s b (byteLen s)]
  | (x, y) :: rest, st =>
    if isSingleAlnum (sliceBytes s x y) then
      specScanNoHmm s rest (some (st.getD x))
    else
      (match st with | some b => [sliceBytes s b x] | none => []) ++
        sliceBytes s x y :: specScanNoHmm s rest none

/-- The spec's flush of a pending span in HMM mode: a length-1 span is one
word; a longer span that is not an exact dictionary word goes to HMM
Viterbi; a longer dictionary-word span is emitted code point by code
point. -/
def specFlushHmm (j : Jieba) (hp : HmmParams) (span : List Char) : List (List Char) :=
  if span.length = 1 then [span]
  else if (j.exact_match_search span).isNone then hmmCut hp span
  else span.map (fun c => [c])

/-- The spec's state machine for the HMM cut scan: the pending span
collects every single-code-point step. -/
def specScanHmm (j : Jieba) (hp : HmmParams) (s : List Char) :
    List (Nat × Nat) → Option Nat → List (List Char)
  | [], none => []
  | [], some b => specFlushHmm j hp (sliceBytes s b (byteLen s))
  | (x, y) :: rest, st =>
    if (sliceBytes s x y).length = 1 then
      specScanHmm j hp s rest (some (st.getD x))
    else
      (match st with | some b => specFlushHmm j hp (sliceBytes s b x) | none => []) ++
        sliceBytes s x y :: specScanHmm j hp s rest none

/-- Every `g`-character substring of `w` that is an exact dictionary word,
for all starts in ascending order. -/
def specGramExtras (j : Jieba) (w : List Char) (g : Nat) : List (List Char) :=
  ((List.range (w.length + 1 - g)).map (fun i => (w.drop i).take g)).filter
    (fun frag => (j.exact_match_search frag).isSome)

/-- The spec's per-word emission of `cut_for_search`: dictionary-present
2-grams (when the word is longer than 2), then dictionary-present 3-grams
(when longer than 3), then the word. -/
def specSearchEmit (j : Jieba) (w : List Char) : List (List Char) :=
  (if 2 < w.length then specGramExtras j w 2 else []) ++
  (if 3 < w.length then specGramExtras j w 3 else []) ++ [w]

/-- The spec's tag assignment for one word (amended at the first branch to
what the code tests: `exact_match_search` hitting, not dictionary
membership): dictionary tag on a hit, else `x` when the word has no ASCII
alphanumeric, `m` when all its ASCII alphanumerics are digits, else
`eng`. -/
def specTagOf (j : Jieba) (word : List Char) : List Char :=
  match j.exact_match_search word with
  | some id => ((j.records[id]?).map (fun r => r.2.2)).getD []
  | none =>
    if word.countP (fun c => isAsciiAlnum c) = 0 then ['x']
    else if word.countP (fun c => isAsciiAlnum c) =
        word.countP (fun c => isAsciiDigit c) then ['m']
    else ['e', 'n', 'g']

/-- A lexicon line whose frequency field does not parse as `usize`
(the condition under which construction panics). -/
def lineMalformed (line : List Char) : Bool :=
  match splitWs line with
  | [] => false
  | _ :: rest =>
    match rest with
    | [] => false
    | f :: _ => (parseUsize f).isNone

/-- The record a well-formed lexicon line should produce per the spec:
blank lines none, missing frequency defaults to 0, missing tag to "". -/
def expectedRecord (line : List Char) : Option DictRecord :=
  match splitWs line with
  | [] => none
  | w :: rest =>
    match rest with
    | [] => some (w, 0, [])
    | f :: rest2 => (parseUsize f).map (fun n => (w, n, rest2.headD []))

/-! ### Concrete fixtures for witnesses and counterexamples -/

/-- Integer stand-in for the log map (images of `ln` are irrelevant to the
structural claims, which hold for every `lg`). -/
def lgId : Nat → ℤ := fun n => (n : ℤ)

/-- Trivial HMM parameters for concrete evaluations. -/
def hp0 : HmmParams := ⟨fun _ => 0, fun _ _ => 0, fun _ _ => 0⟩

/-- The empty dictionary. -/
def jEmpty : Jieba := ⟨[], 0, 0⟩

/-- Dictionary {bc: 1}. -/
def jBC : Jieba := ⟨[(['b', 'c'], 1, [])], 1, 0⟩

/-- Dictionary {b: 5, tag v}. -/
def jB : Jieba := ⟨[(['b'], 5, ['v'])], 5, 0⟩

/-- Dictionary {abc: 10, ab: 1}. -/
def jABC : Jieba := ⟨[(['a', 'b', 'c'], 10, []), (['a', 'b'], 1, [])], 11, 0⟩

theorem charWidth_pos (c : Char) : 0 < charWidth c := by
  unfold charWidth
  split ; · exact Nat.zero_lt_one
  split ; · exact Nat.zero_lt_two
  split ; · omega
  omega

theorem byteLen_append (a b : List Char) :
    byteLen (a ++ b) = byteLen a + byteLen b := by
  induction a with
  | nil => simp
  | cons c t ih => simp [ih, Nat.add_assoc]

theorem byteLen_eq_zero {s : List Char} (h : byteLen s = 0) : s = [] := by
  cases s with
  | nil => rfl
  | cons c t =>
    exfalso
    have hc := charWidth_pos c
    simp [byteLen_cons] at h
    omega

theorem dropBytes_cons_of_pos (n : Nat) (hn : 0 < n) (c : Char) (cs : List Char) :
    dropBytes n (c :: cs) = dropBytes (n - charWidth c) cs := by
  cases n with
  | zero => omega
  | succ m => rfl

theorem takeBytes_cons_of_pos (n : Nat) (hn : 0 < n) (c : Char) (cs : List Char) :
    takeBytes n (c :: cs) = c :: takeBytes (n - charWidth c) cs := by
  cases n with
  | zero => omega
  | succ m => rfl

theorem takeBytes_append_dropBytes (n : Nat) (s : List Char) :
    takeBytes n s ++ dropBytes n s = s := by
  induction s generalizing n with
  | nil => simp
  | cons c cs ih =>
    cases n with
    | zero => simp
    | succ m =>
      rw [takeBytes_cons_of_pos _ (Nat.succ_pos m), dropBytes_cons_of_pos _ (Nat.succ_pos m)]
      simp [ih]

theorem dropBytes_byteLen_append (p q : List Char) :
    dropBytes (byteLen p) (p ++ q) = q := by
  induction p with
  | nil => simp
  | cons c t ih =>
    have hw := charWidth_pos c
    have hpos : 0 < byteLen (c :: t) := by simp [byteLen_cons] ; omega
    rw [List.cons_append, dropBytes_cons_of_pos _ hpos]
    simp [byteLen_cons, ih]

theorem takeBytes_byteLen_append (p q : List Char) :
    takeBytes (byteLen p) (p ++ q) = p := by
  induction p with
  | nil => simp
  | cons c t ih =>
    have hw := charWidth_pos c
    have hpos : 0 < byteLen (c :: t) := by simp [byteLen_cons] ; omega
    rw [List.cons_append, takeBytes_cons_of_pos _ hpos]
    simp [byteLen_cons, ih]

theorem byteLen_take_lt_of_lt {s : List Char} {k k' : Nat}
    (h : k < k') (h' : k' ≤ s.length) :
    byteLen (s.take k) < byteLen (s.take k') := by
  induction s generalizing k k' with
  | nil => simp at h' ; omega
  | cons c t ih =>
    cases k' with
    | zero => omega
    | succ m =>
      cases k with
      | zero =>
        simp only [List.take_zero, byteLen_nil, List.take_succ_cons, byteLen_cons]
        have := charWidth_pos c
        omega
      | succ j =>
        simp only [List.take_succ_cons, byteLen_cons]
        have hm : m ≤ t.length := by simpa using h'
        have := @ih j m (by omega) hm
        omega

theorem byteLen_take_le (s : List Char) (k : Nat) :
    byteLen (s.take k) ≤ byteLen s := by
  conv_rhs => rw [← List.take_append_drop k s]
  rw [byteLen_append]
  omega

theorem byteLen_take_lt_of_index {s : List Char} {k : Nat} (h : k < s.length) :
    byteLen (s.take k) < byteLen s := by
  have := @byteLen_take_lt_of_lt s k s.length h (Nat.le_refl _)
  simpa using this

theorem mem_charStarts {s : List Char} {b : Nat} :
    b ∈ charStarts s ↔ ∃ k, k < s.length ∧ b = byteLen (s.take k) := by
  constructor
  · intro h
    rcases List.mem_map.mp h with ⟨k, hk, hb⟩
    exact ⟨k, List.mem_range.mp hk, hb.symm⟩
  · rintro ⟨k, hk, rfl⟩
    exact List.mem_map.mpr ⟨k, List.mem_range.mpr hk, rfl⟩

theorem charStarts_lt_byteLen {s : List Char} {b : Nat} (h : b ∈ charStarts s) :
    b < byteLen s := by
  rcases mem_charStarts.mp h with ⟨k, hk, rfl⟩
  exact byteLen_take_lt_of_index hk

theorem joinL_append (a b : List (List Char)) :
    joinL (a ++ b) = joinL a ++ joinL b := by
  induction a with
  | nil => simp
  | cons w ws ih => simp [ih]

theorem isSubsegment_refl (s : List Char) : isSubsegment s s := ⟨[], [], by simp⟩

theorem isSubsegment_trans {u v w : List Char}
    (h1 : isSubsegment u v) (h2 : isSubsegment v w) : isSubsegment u w := by
  rcases h1 with ⟨a1, b1, rfl⟩
  rcases h2 with ⟨a2, b2, rfl⟩
  exact ⟨a2 ++ a1, b1 ++ b2, by simp⟩

theorem isSubsegment_of_mem_joinL {w : List Char} {l : List (List Char)}
    (h : w ∈ l) : isSubsegment w (joinL l) := by
  induction l with
  | nil => cases h
  | cons x xs ih =>
    rcases List.mem_cons.mp h with rfl | h
    · exact ⟨[], joinL xs, by simp⟩
    · rcases ih h with ⟨a, b, hab⟩
      exact ⟨x ++ a, b, by simp [hab]⟩

theorem splitRuns_cons (p : Char → Bool) (c : Char) (cs : List Char) :
    splitRuns p (c :: cs) =
      match splitRuns p cs with
      | [] => [(p c, [c])]
      | (b, r) :: rest =>
        if b = p c then (b, c :: r) :: rest else (p c, [c]) :: (b, r) :: rest := rfl

theorem joinL_splitRuns (p : Char → Bool) (s : List Char) :
    joinL ((splitRuns p s).map Prod.snd) = s := by
  induction s with
  | nil => rfl
  | cons c cs ih =>
    rw [splitRuns_cons]
    cases hsp : splitRuns p cs with
    | nil =>
      rw [hsp] at ih
      simp at ih
      simp [ih]
    | cons hd tl =>
      obtain ⟨b, r⟩ := hd
      rw [hsp] at ih
      dsimp only
      by_cases hb : b = p c
      · rw [if_pos hb]
        simp at ih ⊢
        simp [ih]
      · rw [if_neg hb]
        simp at ih ⊢
        simp [ih]

theorem splitRuns_piece_ne_nil (p : Char → Bool) (s : List Char) :
    ∀ q ∈ splitRuns p s, q.2 ≠ [] := by
  induction s with
  | nil => intro q hq ; cases hq
  | cons c cs ih =>
    intro q hq
    rw [splitRuns_cons] at hq
    cases hsp : splitRuns p cs with
    | nil => rw [hsp] at hq ; simp at hq ; simp [hq]
    | cons hd tl =>
      obtain ⟨b, r⟩ := hd
      rw [hsp] at hq
      dsimp only at hq
      by_cases hb : b = p c
      · rw [if_pos hb] at hq
        rcases List.mem_cons.mp hq with rfl | hq
        · simp
        · exact ih q (hsp ▸ List.mem_cons_of_mem _ hq)
      · rw [if_neg hb] at hq
        rcases List.mem_cons.mp hq with rfl | hq
        · simp
        · exact ih q (hsp ▸ hq)

theorem catMap_append (f : α → List β) (l1 l2 : List α) :
    catMap f (l1 ++ l2) = catMap f l1 ++ catMap f l2 := by
  induction l1 with
  | nil => simp
  | cons a t ih => simp [ih]

theorem mem_catMap {f : α → List β} {l : List α} {b : β} :
    b ∈ catMap f l ↔ ∃ a ∈ l, b ∈ f a := by
  induction l with
  | nil => simp
  | cons x t ih =>
    simp only [catMap_cons, List.mem_append, ih, List.mem_cons]
    constructor
    · rintro (h | ⟨a, ha, hb⟩)
      · exact ⟨x, Or.inl rfl, h⟩
      · exact ⟨a, Or.inr ha, hb⟩
    · rintro ⟨a, rfl | ha, hb⟩
      · exact Or.inl hb
      · exact Or.inr ⟨a, ha, hb⟩

theorem updateFn_other (f : Nat → α) (i k : Nat) (v : α) (h : k ≠ i) :
    updateFn f i v k = f k := by simp [updateFn, h]

theorem rl_zero (s : List Char) : rl s 0 = [] := rfl

theorem rl_succ (s : List Char) (k : Nat) :
    rl s (k + 1) = byteLen (s.take k) :: rl s k := by
  simp [rl, List.range_succ]

theorem mem_rl {s : List Char} {k b : Nat} :
    b ∈ rl s k ↔ ∃ j, j < k ∧ b = byteLen (s.take j) := by
  simp only [rl, List.mem_map, List.mem_reverse, List.mem_range]
  constructor
  · rintro ⟨j, hj, rfl⟩ ; exact ⟨j, hj, rfl⟩
  · rintro ⟨j, hj, rfl⟩ ; exact ⟨j, hj, rfl⟩

theorem charStarts_reverse_eq_rl (s : List Char) :
    (charStarts s).reverse = rl s s.length := by
  simp [charStarts, rl, List.map_reverse]

theorem byteLen_take_mono {s : List Char} {j k : Nat} (h : j ≤ k) (hk : k ≤ s.length) :
    byteLen (s.take j) ≤ byteLen (s.take k) := by
  rcases Nat.lt_or_ge j k with hjk | hjk
  · exact Nat.le_of_lt (byteLen_take_lt_of_lt hjk hk)
  · have : j = k := Nat.le_antisymm h hjk
    simp [this]

theorem byteLen_take_inj {s : List Char} {j k : Nat}
    (hj : j ≤ s.length) (hk : k ≤ s.length)
    (h : byteLen (s.take j) = byteLen (s.take k)) : j = k := by
  rcases Nat.lt_trichotomy j k with hlt | heq | hgt
  · exact absurd h (Nat.ne_of_lt (byteLen_take_lt_of_lt hlt hk))
  · exact heq
  · exact absurd h.symm (Nat.ne_of_lt (byteLen_take_lt_of_lt hgt hj))

theorem calcGo_fst_cons (j : Jieba) (lg : Nat → ℤ) (s : List Char) (dag : Nat → List Nat)
    (todo : List Nat) (st : Nat × (Nat → ℤ × Nat)) :
    (calcGo j lg s dag todo st).1 = todo.getLast?.getD st.1 := by
  induction todo generalizing st with
  | nil => rfl
  | cons b rest ih =>
    rw [calcGo, ih]
    cases rest with
    | nil => simp [List.getLast?]
    | cons c cs =>
      have hv : (c :: cs).getLast? = some ((c :: cs).getLast (by simp)) :=
        List.getLast?_eq_getLast _ _
      simp [List.getLast?_cons_cons, hv]

theorem calcGo_preserve (j : Jieba) (lg : Nat → ℤ) (s : List Char) (dag : Nat → List Nat)
    (todo : List Nat) (st : Nat × (Nat → ℤ × Nat)) (b : Nat) (hb : b ∉ todo) :
    (calcGo j lg s dag todo st).2 b = st.2 b := by
  induction todo generalizing st with
  | nil => rfl
  | cons x rest ih =>
    rw [calcGo, ih _ (fun h => hb (List.mem_cons_of_mem _ h))]
    exact updateFn_other _ _ _ _ (fun h => hb (h ▸ List.mem_cons_self _ _))

theorem specGo_preserve (j : Jieba) (lg : Nat → ℤ) (s : List Char) (dag : Nat → List Nat)
    (todo : List Nat) (route : Nat → ℤ × Nat) (b : Nat) (hb : b ∉ todo) :
    specGo j lg s dag todo route b = route b := by
  induction todo generalizing route with
  | nil => rfl
  | cons x rest ih =>
    rw [specGo, ih _ (fun h => hb (List.mem_cons_of_mem _ h))]
    exact updateFn_other _ _ _ _ (fun h => hb (h ▸ List.mem_cons_self _ _))

theorem find?_append_of_none {p : α → Bool} {l1 l2 : List α}
    (h : ∀ a ∈ l1, p a = false) : (l1 ++ l2).find? p = l2.find? p := by
  induction l1 with
  | nil => simp
  | cons a t ih =>
    rw [List.cons_append, List.find?_cons_of_neg, ih]
    · intro x hx ; exact h x (List.mem_cons_of_mem _ hx)
    · simp [h a (List.mem_cons_self _ _)]

theorem filter_append_of_none {p : α → Bool} {l1 l2 : List α}
    (h : ∀ a ∈ l1, p a = false) : (l1 ++ l2).filter p = l2.filter p := by
  induction l1 with
  | nil => simp
  | cons a t ih =>
    rw [List.cons_append, List.filter_cons_of_neg, ih]
    · intro x hx ; exact h x (List.mem_cons_of_mem _ hx)
    · simp [h a (List.mem_cons_self _ _)]

theorem charIdxAt_take (s : List Char) (k : Nat) (hk : k < s.length) :
    charIdxAt s (byteLen (s.take k)) = some k := by
  unfold charIdxAt
  have hsplit : List.range s.length =
      List.range k ++ (List.range (s.length - k)).map (k + ·) := by
    rw [← List.range_add] ; congr 1 ; omega
  rw [hsplit, find?_append_of_none]
  · have h1 : s.length - k = (s.length - k - 1) + 1 := by omega
    rw [h1, List.range_succ_eq_map]
    simp only [List.map_cons, Nat.add_zero]
    rw [List.find?_cons_of_pos]
    simp
  · intro a ha
    simp only [List.mem_range] at ha
    have := byteLen_take_lt_of_lt ha (Nat.le_of_lt hk)
    simp [Nat.ne_of_lt this]

theorem nextStart_take (s : List Char) (k : Nat) (hk : k < s.length) :
    nextStart s (byteLen (s.take k)) = byteLen (s.take (k + 1)) := by
  unfold nextStart
  have hlen : s.length = (k + 1) + (s.length - (k + 1)) := by omega
  have hsplit : charStarts s =
      ((List.range (k + 1)).map fun i => byteLen (s.take i)) ++
      ((List.range (s.length - (k + 1))).map fun i => byteLen (s.take (k + 1 + i))) := by
    unfold charStarts
    conv_lhs => rw [hlen]
    rw [List.range_add, List.map_append, List.map_map]
    congr 1
  rw [hsplit, filter_append_of_none]
  · cases h2 : s.length - (k + 1) with
    | zero =>
      have hkl : k + 1 = s.length := by omega
      simp only [h2, List.range_zero, List.map_nil, List.filter_nil, List.headD_nil]
      rw [hkl, List.take_length]
    | succ m =>
      rw [List.range_succ_eq_map]
      simp only [List.map_cons, Nat.add_zero]
      rw [List.filter_cons_of_pos]
      · simp
      · have := byteLen_take_lt_of_lt (s := s)
          (show k < k + 1 by omega) (by omega)
        simp [this]
  · intro a ha
    rcases List.mem_map.mp ha with ⟨i, hi, rfl⟩
    simp only [List.mem_range] at hi
    have hle : byteLen (s.take i) ≤ byteLen (s.take k) :=
      byteLen_take_mono (by omega) (Nat.le_of_lt hk)
    simp only [decide_eq_false_iff_not]
    omega

theorem take_append_fragAt (s : List Char) (i L : Nat) :
    s.take i ++ fragAt s i L = s.take (i + L) := by
  rw [fragAt, List.take_add]

theorem dagEndsAt_spec {recs : List DictRecord} {s : List Char} {i e : Nat}
    (he : e ∈ dagEndsAt recs s i) :
    ∃ k', i < k' ∧ k' ≤ s.length ∧ e = byteLen (s.take k') ∧
      ∃ r ∈ recs, r.1 = fragAt s i (k' - i) := by
  unfold dagEndsAt at he
  rcases mem_catMap.mp he with ⟨k, hk, he2⟩
  rcases mem_catMap.mp he2 with ⟨r, hr, he3⟩
  simp only [List.mem_range] at hk
  by_cases hcond : r.1 = fragAt s i (k + 1)
  · rw [if_pos hcond] at he3
    rcases List.mem_singleton.mp he3 with rfl
    refine ⟨i + (k + 1), by omega, by omega, ?_, r, hr, ?_⟩
    · rw [← take_append_fragAt s i (k + 1), byteLen_append]
    · rw [show i + (k + 1) - i = k + 1 by omega] ; exact hcond
  · rw [if_neg hcond] at he3
    cases he3

theorem dagOf_spec {j : Jieba} {s : List Char} {k e : Nat} (hk : k < s.length)
    (he : e ∈ j.dagOf s (byteLen (s.take k))) :
    ∃ k', k < k' ∧ k' ≤ s.length ∧ e = byteLen (s.take k') ∧
      ∃ r ∈ j.records, r.1 = fragAt s k (k' - k) := by
  unfold Jieba.dagOf at he
  rw [charIdxAt_take s k hk] at he
  exact dagEndsAt_spec he

theorem foldl_keep_mem {step : α → α → α} (hstep : ∀ a y, step a y = a ∨ step a y = y)
    (l : List α) (a : α) : l.foldl step a = a ∨ l.foldl step a ∈ l := by
  induction l generalizing a with
  | nil => left ; rfl
  | cons y ys ih =>
    rw [List.foldl_cons]
    rcases ih (step a y) with h | h
    · rcases hstep a y with h2 | h2
      · left ; rw [h, h2]
      · right ; rw [h, h2] ; exact List.mem_cons_self _ _
    · right ; exact List.mem_cons_of_mem _ h

theorem rustMaxBy_mem {cmp : α → α → Ordering} {l : List α} {x : α}
    (h : rustMaxBy cmp l = some x) : x ∈ l := by
  cases l with
  | nil => cases h
  | cons a as =>
    unfold rustMaxBy at h
    injection h with h
    have := @foldl_keep_mem _
      (fun acc y => if cmp y acc = .lt then acc else y)
      (fun a y => by by_cases hc : cmp y a = .lt <;> simp [hc]) as a
    rw [h] at this
    rcases this with h2 | h2
    · exact h2 ▸ List.mem_cons_self _ _
    · exact List.mem_cons_of_mem _ h2

@[simp] theorem ordering_lt_then (o : Ordering) : Ordering.lt.then o = .lt := rfl

@[simp] theorem ordering_gt_then (o : Ordering) : Ordering.gt.then o = .gt := rfl

@[simp] theorem ordering_eq_then (o : Ordering) : Ordering.eq.then o = o := rfl

theorem cmpPair_of_lt {x y : ℤ × Nat} (h : x.1 < y.1) : cmpPair x y = .lt := by
  unfold cmpPair cmpQ ; rw [if_pos h] ; rfl

theorem cmpPair_of_gt {x y : ℤ × Nat} (h : y.1 < x.1) : cmpPair x y = .gt := by
  unfold cmpPair cmpQ
  rw [if_neg (not_lt.mpr (le_of_lt h)), if_neg (ne_of_gt h)] ; rfl

theorem cmpPair_of_eq_lt {x y : ℤ × Nat} (h : x.1 = y.1) (h2 : x.2 < y.2) :
    cmpPair x y = .lt := by
  unfold cmpPair cmpQ cmpNat
  rw [if_neg (by rw [h] ; exact lt_irrefl _), if_pos h, ordering_eq_then, if_pos h2]

theorem cmpPair_of_eq_gt {x y : ℤ × Nat} (h : x.1 = y.1) (h2 : y.2 < x.2) :
    cmpPair x y = .gt := by
  unfold cmpPair cmpQ cmpNat
  rw [if_neg (by rw [h] ; exact lt_irrefl _), if_pos h, ordering_eq_then]
  rw [if_neg (by omega), if_neg (by omega)]

theorem rustMaxBy_cmpPair_eq_specBest (l : List (ℤ × Nat)) :
    rustMaxBy cmpPair l = specBest l := by
  cases l with
  | nil => rfl
  | cons x xs =>
    unfold rustMaxBy specBest
    have hstep : (fun (acc y : ℤ × Nat) => if cmpPair y acc = .lt then acc else y)
        = (fun (best q : ℤ × Nat) =>
            if best.1 < q.1 ∨ (best.1 = q.1 ∧ best.2 < q.2) then q else best) := by
      funext acc y
      rcases lt_trichotomy y.1 acc.1 with h1 | h1 | h1
      · rw [if_pos (cmpPair_of_lt h1), if_neg]
        rintro (hh | ⟨hh, _⟩)
        · exact absurd hh (not_lt.mpr (le_of_lt h1))
        · exact absurd hh (ne_of_gt h1)
      · rcases Nat.lt_trichotomy y.2 acc.2 with h2 | h2 | h2
        · rw [if_pos (cmpPair_of_eq_lt h1 h2), if_neg]
          rintro (hh | ⟨_, hh⟩)
          · exact absurd hh (not_lt.mpr (le_of_eq h1))
          · omega
        · have hy : y = acc := Prod.ext_iff.mpr ⟨h1, h2⟩
          subst hy
          by_cases hc : cmpPair y y = .lt <;> by_cases hd : y.1 < y.1 ∨ (y.1 = y.1 ∧ y.2 < y.2) <;>
            simp [hc, hd]
        · rw [if_neg (by rw [cmpPair_of_eq_gt h1 h2] ; intro hcon ; cases hcon),
            if_pos (Or.inr ⟨h1.symm, h2⟩)]
      · rw [if_neg (by rw [cmpPair_of_gt h1] ; intro hcon ; cases hcon), if_pos (Or.inl h1)]
    rw [hstep]

theorem calcGo_cons (j : Jieba) (lg : Nat → ℤ) (s : List Char) (dag : Nat → List Nat)
    (b : Nat) (rest : List Nat) (st : Nat × (Nat → ℤ × Nat)) :
    calcGo j lg s dag (b :: rest) st =
      calcGo j lg s dag rest (b, updateFn st.2 b (calcStep j lg s dag b st.1 st.2)) := rfl

theorem specGo_cons (j : Jieba) (lg : Nat → ℤ) (s : List Char) (dag : Nat → List Nat)
    (b : Nat) (rest : List Nat) (route : Nat → ℤ × Nat) :
    specGo j lg s dag (b :: rest) route =
      specGo j lg s dag rest (updateFn route b (specStep j lg s dag b route)) := rfl

theorem map_congr_mem {f g : α → β} :
    ∀ {l : List α}, (∀ a ∈ l, f a = g a) → l.map f = l.map g := by
  intro l
  induction l with
  | nil => intro _ ; rfl
  | cons a t ih =>
    intro h
    simp only [List.map_cons]
    rw [h a (List.mem_cons_self _ _), ih (fun x hx => h x (List.mem_cons_of_mem _ hx))]

theorem specBest_isSome {l : List (ℤ × Nat)} (h : l ≠ []) : ∃ p, specBest l = some p := by
  cases l with
  | nil => exact absurd rfl h
  | cons x xs => exact ⟨_, rfl⟩

theorem not_mem_rl_self {s : List Char} {k : Nat} (hk : k ≤ s.length) :
    byteLen (s.take k) ∉ rl s k := by
  intro hmem
  rcases mem_rl.mp hmem with ⟨j2, hj2, heq⟩
  have := byteLen_take_inj hk (by omega) heq
  omega

theorem calcSpec_agree (j : Jieba) (lg : Nat → ℤ) (s : List Char) :
    ∀ k, k ≤ s.length → ∀ (stC : Nat × (Nat → ℤ × Nat)) (rS : Nat → ℤ × Nat),
    stC.1 = byteLen (s.take k) →
    (∀ i, k ≤ i → i ≤ s.length →
      (stC.2 (byteLen (s.take i))).1 = (rS (byteLen (s.take i))).1) →
    ∀ i, i < k →
      (calcGo j lg s (j.dagOf s) (rl s k) stC).2 (byteLen (s.take i)) =
      specGo j lg s (j.dagOf s) (rl s k) rS (byteLen (s.take i)) := by
  intro k
  induction k with
  | zero => intro _ stC rS _ _ i hi ; omega
  | succ k ih =>
    intro hk stC rS hprev hfst i hik
    have hkn : k < s.length := hk
    have hnotin := not_mem_rl_self (s := s) (k := k) (by omega)
    have hv : calcStep j lg s (j.dagOf s) (byteLen (s.take k)) stC.1 stC.2
            = specStep j lg s (j.dagOf s) (byteLen (s.take k)) rS := by
      have hmap : ((j.dagOf s (byteLen (s.take k))).map (fun e =>
          (lg (j.freqIn (sliceBytes s (byteLen (s.take k)) e)) - lg j.total
            + (stC.2 e).1, e)))
          = ((j.dagOf s (byteLen (s.take k))).map (fun e =>
          (lg (j.freqIn (sliceBytes s (byteLen (s.take k)) e)) - lg j.total
            + (rS e).1, e))) := by
        apply map_congr_mem
        intro e he
        rcases dagOf_spec hkn he with ⟨k2, hk1, hk2, rfl, _⟩
        rw [hfst k2 (by omega) hk2]
      unfold calcStep specStep
      rw [hmap, rustMaxBy_cmpPair_eq_specBest]
      by_cases hdag : j.dagOf s (byteLen (s.take k)) = []
      · rw [if_pos hdag, hdag]
        simp only [List.map_nil]
        rw [nextStart_take s k hkn, hprev]
        rw [hfst (k + 1) (Nat.le_refl _) (by omega)]
        rfl
      · rw [if_neg hdag]
        have hmapne : ((j.dagOf s (byteLen (s.take k))).map (fun e =>
            (lg (j.freqIn (sliceBytes s (byteLen (s.take k)) e)) - lg j.total
              + (rS e).1, e))) ≠ [] := by
          intro hcon
          exact hdag (List.map_eq_nil_iff.mp hcon)
        obtain ⟨p, hp⟩ := specBest_isSome hmapne
        rw [hp]
    rw [rl_succ, calcGo_cons, specGo_cons]
    rcases Nat.lt_or_ge i k with hik2 | hik2
    · refine ih (by omega) _ _ rfl ?_ i hik2
      intro i2 hi2 hi2n
      by_cases hieq : i2 = k
      · subst hieq
        dsimp only
        simp only [updateFn_same]
        rw [hv]
      · have hne : byteLen (s.take i2) ≠ byteLen (s.take k) :=
          fun he => hieq (byteLen_take_inj hi2n (by omega) he)
        dsimp only
        rw [updateFn_other _ _ _ _ hne, updateFn_other _ _ _ _ hne]
        exact hfst i2 (by omega) hi2n
    · have hieq : i = k := by omega
      subst hieq
      rw [calcGo_preserve _ _ _ _ _ _ _ hnotin, specGo_preserve _ _ _ _ _ _ _ hnotin]
      dsimp only
      simp only [updateFn_same]
      exact hv

theorem calc_progress (j : Jieba) (lg : Nat → ℤ) (s : List Char) :
    ∀ k, k ≤ s.length → ∀ (stC : Nat × (Nat → ℤ × Nat)),
    stC.1 = byteLen (s.take k) →
    ∀ i, i < k → ∃ k2, i < k2 ∧ k2 ≤ s.length ∧
      ((calcGo j lg s (j.dagOf s) (rl s k) stC).2 (byteLen (s.take i))).2 =
        byteLen (s.take k2) := by
  intro k
  induction k with
  | zero => intro _ stC _ i hi ; omega
  | succ k ih =>
    intro hk stC hprev i hik
    have hkn : k < s.length := hk
    have hnotin := not_mem_rl_self (s := s) (k := k) (by omega)
    rw [rl_succ, calcGo_cons]
    rcases Nat.lt_or_ge i k with hik2 | hik2
    · exact ih (by omega) _ rfl i hik2
    · have hieq : i = k := by omega
      subst hieq
      rw [calcGo_preserve _ _ _ _ _ _ _ hnotin]
      dsimp only
      simp only [updateFn_same]
      unfold calcStep
      cases hmb : rustMaxBy cmpPair ((j.dagOf s (byteLen (s.take i))).map (fun e =>
          (lg (j.freqIn (sliceBytes s (byteLen (s.take i)) e)) - lg j.total
            + (stC.2 e).1, e))) with
      | none =>
        refine ⟨i + 1, by omega, by omega, ?_⟩
        simp only [hprev]
      | some p =>
        have hpm := rustMaxBy_mem hmb
        rcases List.mem_map.mp hpm with ⟨e, he, hpe⟩
        rcases dagOf_spec hkn he with ⟨k2, hk1, hk2, rfl, _⟩
        exact ⟨k2, hk1, hk2, by rw [← hpe]⟩

theorem calcRoute_eq_calcGo (j : Jieba) (lg : Nat → ℤ) (s : List Char) :
    j.calcRoute lg s (j.dagOf s) =
      (calcGo j lg s (j.dagOf s) (rl s s.length) (byteLen s, fun _ => (0, 0))).2 := by
  unfold Jieba.calcRoute
  rw [charStarts_reverse_eq_rl]

theorem specRoute_eq_specGo (j : Jieba) (lg : Nat → ℤ) (s : List Char) :
    specRoute j lg s (j.dagOf s) =
      specGo j lg s (j.dagOf s) (rl s s.length)
        (updateFn (fun _ => (0, 0)) (byteLen s) (0, byteLen s)) := by
  unfold specRoute
  rw [charStarts_reverse_eq_rl]

theorem self_byteLen_not_mem_rl (s : List Char) (k : Nat) (hk : k ≤ s.length) :
    byteLen s ∉ rl s k := by
  intro hmem
  rcases mem_rl.mp hmem with ⟨j2, hj2, heq⟩
  have := byteLen_take_lt_of_index (s := s) (k := j2) (by omega)
  omega

theorem calcRoute_at_byteLen (j : Jieba) (lg : Nat → ℤ) (s : List Char) :
    j.calcRoute lg s (j.dagOf s) (byteLen s) = (0, 0) := by
  rw [calcRoute_eq_calcGo]
  rw [calcGo_preserve _ _ _ _ _ _ _ (self_byteLen_not_mem_rl s s.length (Nat.le_refl _))]

theorem specRoute_at_byteLen (j : Jieba) (lg : Nat → ℤ) (s : List Char) :
    specRoute j lg s (j.dagOf s) (byteLen s) = (0, byteLen s) := by
  rw [specRoute_eq_specGo]
  rw [specGo_preserve _ _ _ _ _ _ _ (self_byteLen_not_mem_rl s s.length (Nat.le_refl _))]
  simp [updateFn]

theorem calcRoute_agrees_specRoute (j : Jieba) (lg : Nat → ℤ) (s : List Char)
    (k : Nat) (hk : k < s.length) :
    j.calcRoute lg s (j.dagOf s) (byteLen (s.take k)) =
      specRoute j lg s (j.dagOf s) (byteLen (s.take k)) := by
  rw [calcRoute_eq_calcGo, specRoute_eq_specGo]
  refine calcSpec_agree j lg s s.length (Nat.le_refl _) _ _ ?_ ?_ k hk
  · simp
  · intro i hi hin
    have : i = s.length := by omega
    subst this
    simp [updateFn, List.take_length]

theorem calcRoute_progress (j : Jieba) (lg : Nat → ℤ) (s : List Char)
    (k : Nat) (hk : k < s.length) :
    ∃ k2, k < k2 ∧ k2 ≤ s.length ∧
      (j.calcRoute lg s (j.dagOf s) (byteLen (s.take k))).2 = byteLen (s.take k2) := by
  rw [calcRoute_eq_calcGo]
  exact calc_progress j lg s s.length (Nat.le_refl _) _ (by simp) k hk

/-! ### Slice algebra on char boundaries -/

theorem sliceBytes_self (s : List Char) (x : Nat) : sliceBytes s x x = [] := by
  unfold sliceBytes
  rw [Nat.sub_self, takeBytes_zero]

theorem takeBytes_byteLen (s : List Char) : takeBytes (byteLen s) s = s := by
  have := takeBytes_byteLen_append s []
  simpa using this

theorem sliceBytes_zero_byteLen (s : List Char) : sliceBytes s 0 (byteLen s) = s := by
  unfold sliceBytes
  rw [dropBytes_zero, Nat.sub_zero, takeBytes_byteLen]

theorem take_decomp {s : List Char} {k1 k2 : Nat} (h12 : k1 ≤ k2) :
    s.take k2 = s.take k1 ++ (s.take k2).drop k1 := by
  conv_lhs => rw [← List.take_append_drop k1 (s.take k2)]
  rw [List.take_take, min_eq_left h12]

theorem sliceBytes_decomp (p m q : List Char) :
    sliceBytes (p ++ (m ++ q)) (byteLen p) (byteLen p + byteLen m) = m := by
  unfold sliceBytes
  rw [dropBytes_byteLen_append]
  rw [show byteLen p + byteLen m - byteLen p = byteLen m by omega]
  rw [takeBytes_byteLen_append]

theorem sliceBytes_take_take {s : List Char} {k1 k2 : Nat} (h12 : k1 ≤ k2) :
    sliceBytes s (byteLen (s.take k1)) (byteLen (s.take k2)) = (s.take k2).drop k1 := by
  have hsplit : s.take k2 = s.take k1 ++ (s.take k2).drop k1 := take_decomp h12
  have hmid : byteLen (s.take k2) = byteLen (s.take k1) + byteLen ((s.take k2).drop k1) := by
    conv_lhs => rw [hsplit]
    exact byteLen_append _ _
  have hs : s = s.take k1 ++ ((s.take k2).drop k1 ++ s.drop k2) := by
    conv_lhs => rw [← List.take_append_drop k2 s]
    conv_lhs => rw [hsplit]
    rw [List.append_assoc]
  calc sliceBytes s (byteLen (s.take k1)) (byteLen (s.take k2))
      = sliceBytes (s.take k1 ++ ((s.take k2).drop k1 ++ s.drop k2))
          (byteLen (s.take k1)) (byteLen (s.take k1) + byteLen ((s.take k2).drop k1)) := by
        rw [← hs, ← hmid]
    _ = (s.take k2).drop k1 := sliceBytes_decomp _ _ _

theorem sliceBytes_take_ne_nil {s : List Char} {k1 k2 : Nat}
    (h12 : k1 < k2) (h2 : k2 ≤ s.length) :
    sliceBytes s (byteLen (s.take k1)) (byteLen (s.take k2)) ≠ [] := by
  rw [sliceBytes_take_take (Nat.le_of_lt h12)]
  intro hcon
  have : ((s.take k2).drop k1).length = 0 := by rw [hcon] ; rfl
  rw [List.length_drop, List.length_take] at this
  omega

theorem sliceBytes_take_subsegment {s : List Char} {k1 k2 : Nat} (h12 : k1 ≤ k2) :
    isSubsegment (sliceBytes s (byteLen (s.take k1)) (byteLen (s.take k2))) s := by
  rw [sliceBytes_take_take h12]
  refine ⟨s.take k1, s.drop k2, ?_⟩
  conv_lhs => rw [← List.take_append_drop k2 s]
  conv_lhs => rw [take_decomp h12]

theorem sliceBytes_take_append {s : List Char} {k1 k2 k3 : Nat}
    (h12 : k1 ≤ k2) (h23 : k2 ≤ k3) :
    sliceBytes s (byteLen (s.take k1)) (byteLen (s.take k2)) ++
      sliceBytes s (byteLen (s.take k2)) (byteLen (s.take k3)) =
    sliceBytes s (byteLen (s.take k1)) (byteLen (s.take k3)) := by
  rw [sliceBytes_take_take h12, sliceBytes_take_take h23,
    sliceBytes_take_take (Nat.le_trans h12 h23)]
  have h1 : (s.take k2) = (s.take k3).take k2 := by
    rw [List.take_take, min_eq_left h23]
  rw [h1]
  rw [List.drop_take]
  have h2 : (s.take k3).drop k2 = ((s.take k3).drop k1).drop (k2 - k1) := by
    rw [List.drop_drop]
    congr 1
    omega
  rw [h2]
  exact List.take_append_drop _ _

/-! ### HMM emission lemmas -/

theorem hmmWordsGo_join : ∀ (cs : List Char) (sts : List HStat) (pend : List Char),
    joinL (hmmWordsGo cs sts pend) = pend ++ cs := by
  intro cs
  induction cs with
  | nil =>
    intro sts pend
    unfold hmmWordsGo
    by_cases hp : pend.isEmpty
    · rw [if_pos hp]
      simp [List.isEmpty_iff.mp hp]
    · rw [if_neg hp]
      simp
  | cons c cs ih =>
    intro sts pend
    cases sts with
    | nil => simp [hmmWordsGo]
    | cons st sts =>
      unfold hmmWordsGo
      by_cases hst : st = .E ∨ st = .S
      · rw [if_pos hst]
        simp [ih]
      · rw [if_neg hst]
        rw [ih]
        simp

theorem hmmWordsGo_ne_nil : ∀ (cs : List Char) (sts : List HStat) (pend : List Char),
    ∀ w ∈ hmmWordsGo cs sts pend, w ≠ [] := by
  intro cs
  induction cs with
  | nil =>
    intro sts pend w hw
    unfold hmmWordsGo at hw
    by_cases hp : pend.isEmpty
    · rw [if_pos hp] at hw ; cases hw
    · rw [if_neg hp] at hw
      rcases List.mem_singleton.mp hw with rfl
      exact fun hcon => hp (by rw [hcon] ; rfl)
  | cons c cs ih =>
    intro sts pend w hw
    cases sts with
    | nil =>
      unfold hmmWordsGo at hw
      rcases List.mem_singleton.mp hw with rfl
      simp
    | cons st sts =>
      unfold hmmWordsGo at hw
      by_cases hst : st = .E ∨ st = .S
      · rw [if_pos hst] at hw
        rcases List.mem_cons.mp hw with rfl | hw
        · simp
        · exact ih sts [] w hw
      · rw [if_neg hst] at hw
        exact ih sts (pend ++ [c]) w hw

theorem hmmCut_join (hp : HmmParams) (w : List Char) : joinL (hmmCut hp w) = w := by
  unfold hmmCut
  rw [hmmWordsGo_join]
  rfl

theorem hmmCut_ne_nil (hp : HmmParams) (w : List Char) :
    ∀ p ∈ hmmCut hp w, p ≠ [] :=
  fun p hp2 => hmmWordsGo_ne_nil w (viterbiPath hp w) [] p hp2

theorem hmmCut_subsegment (hp : HmmParams) (w : List Char) :
    ∀ p ∈ hmmCut hp w, isSubsegment p w := by
  intro p hp2
  have := isSubsegment_of_mem_joinL hp2
  rwa [hmmCut_join] at this

/-! ### Misc join lemmas -/

theorem joinL_singleton_map (w : List Char) :
    joinL (w.map (fun c => [c])) = w := by
  induction w with
  | nil => rfl
  | cons c t ih => simp [ih]

theorem joinL_catMap {f : α → List (List Char)} {g : α → List Char} :
    ∀ {l : List α}, (∀ a ∈ l, joinL (f a) = g a) →
    joinL (catMap f l) = joinL (l.map g) := by
  intro l
  induction l with
  | nil => intro _ ; rfl
  | cons a t ih =>
    intro h
    simp only [catMap_cons, List.map_cons, joinL_cons, joinL_append]
    rw [h a (List.mem_cons_self _ _), ih (fun x hx => h x (List.mem_cons_of_mem _ hx))]

/-! ### Flush lemmas -/

theorem flushLeftHmm_eq (j : Jieba) (hp : HmmParams) (s : List Char) (b x : Nat) :
    j.flushLeftHmm hp s b x = specFlushHmm j hp (sliceBytes s b x) := rfl

theorem specFlushHmm_join (j : Jieba) (hp : HmmParams) (span : List Char) :
    joinL (specFlushHmm j hp span) = span := by
  unfold specFlushHmm
  by_cases h1 : span.length = 1
  · rw [if_pos h1] ; simp
  · rw [if_neg h1]
    by_cases h2 : (j.exact_match_search span).isNone
    · rw [if_pos h2, hmmCut_join]
    · rw [if_neg h2, joinL_singleton_map]

theorem specFlushHmm_props (j : Jieba) (hp : HmmParams) (span : List Char)
    (hspan : span ≠ []) :
    ∀ p ∈ specFlushHmm j hp span, p ≠ [] ∧ isSubsegment p span := by
  unfold specFlushHmm
  by_cases h1 : span.length = 1
  · rw [if_pos h1]
    intro p hp2
    rcases List.mem_singleton.mp hp2 with rfl
    exact ⟨hspan, isSubsegment_refl _⟩
  · rw [if_neg h1]
    by_cases h2 : (j.exact_match_search span).isNone
    · rw [if_pos h2]
      exact fun p hp2 => ⟨hmmCut_ne_nil hp span p hp2, hmmCut_subsegment hp span p hp2⟩
    · rw [if_neg h2]
      intro p hp2
      refine ⟨?_, ?_⟩
      · rcases List.mem_map.mp hp2 with ⟨c, _, rfl⟩ ; simp
      · have := isSubsegment_of_mem_joinL hp2
        rwa [joinL_singleton_map] at this

/-! ### The no-HMM walk: completion, concatenation, word shape -/

theorem walkNoHmm_run (j : Jieba) (lg : Nat → ℤ) (s : List Char) :
    ∀ fuel k (left : Option Nat), k ≤ s.length → s.length - k ≤ fuel →
    (∀ b, left = some b → ∃ kb, kb < k ∧ b = byteLen (s.take kb)) →
    ∃ ws, walkNoHmm s (j.calcRoute lg s (j.dagOf s)) fuel (byteLen (s.take k)) left
        = some ws ∧
      joinL ws = sliceBytes s (left.getD (byteLen (s.take k))) (byteLen s) ∧
      ∀ w ∈ ws, w ≠ [] ∧ isSubsegment w s := by
  have hLtake : byteLen (s.take s.length) = byteLen s := by rw [List.take_length]
  intro fuel
  induction fuel with
  | zero =>
    intro k left hk hfuel hleft
    have hkl : k = s.length := by omega
    subst hkl
    rw [hLtake]
    unfold walkNoHmm
    rw [if_neg (lt_irrefl _)]
    cases left with
    | none =>
      refine ⟨[], rfl, ?_, by intro w hw ; cases hw⟩
      simp [sliceBytes_self]
    | some b =>
      rcases hleft b rfl with ⟨kb, hkb, rfl⟩
      refine ⟨_, rfl, ?_, ?_⟩
      · simp
      · intro w hw
        rcases List.mem_singleton.mp hw with rfl
        rw [← hLtake]
        exact ⟨sliceBytes_take_ne_nil hkb (Nat.le_refl _),
          sliceBytes_take_subsegment (Nat.le_of_lt hkb)⟩
  | succ fuel ih =>
    intro k left hk hfuel hleft
    rcases Nat.lt_or_ge k s.length with hkl | hkl
    · have hx : byteLen (s.take k) < byteLen s := byteLen_take_lt_of_index hkl
      rcases calcRoute_progress j lg s k hkl with ⟨k2, hk2, hk2l, hy⟩
      unfold walkNoHmm
      rw [if_pos hx, hy]
      by_cases hsingle :
          isSingleAlnum (sliceBytes s (byteLen (s.take k)) (byteLen (s.take k2))) = true
      · rw [if_pos hsingle]
        have hleft2 : ∀ b,
            (match left with
             | none => some (byteLen (s.take k))
             | some b => some b) = some b →
            ∃ kb, kb < k2 ∧ b = byteLen (s.take kb) := by
          intro b hb
          cases left with
          | none =>
            injection hb with hb
            exact ⟨k, hk2, hb.symm⟩
          | some b0 =>
            injection hb with hb
            rcases hleft b0 rfl with ⟨kb, hkb, rfl⟩
            exact ⟨kb, by omega, hb.symm⟩
        rcases ih k2 _ hk2l (by omega) hleft2 with ⟨ws, hws, hjoin, hprops⟩
        refine ⟨ws, hws, ?_, hprops⟩
        rw [hjoin]
        cases left with
        | none => rfl
        | some b0 => rfl
      · rw [if_neg hsingle]
        rcases ih k2 none hk2l (by omega) (by intro b hb ; cases hb)
          with ⟨ws, hws, hjoin, hprops⟩
        refine ⟨_, by rw [hws] ; rfl, ?_, ?_⟩
        · rw [joinL_append, joinL_cons, hjoin]
          cases left with
          | none =>
            simp only [Option.getD]
            rw [joinL_nil, List.nil_append, ← hLtake]
            rw [sliceBytes_take_append (Nat.le_of_lt hk2) hk2l]
          | some b0 =>
            rcases hleft b0 rfl with ⟨kb, hkb, rfl⟩
            simp only [Option.getD]
            rw [joinL_cons, joinL_nil, List.append_nil, ← hLtake]
            rw [sliceBytes_take_append (Nat.le_of_lt hk2) hk2l]
            rw [sliceBytes_take_append (Nat.le_of_lt hkb) hk]
        · intro w hw
          rcases List.mem_append.mp hw with hw | hw
          · cases left with
            | none => cases hw
            | some b0 =>
              rcases hleft b0 rfl with ⟨kb, hkb, rfl⟩
              rcases List.mem_singleton.mp hw with rfl
              exact ⟨sliceBytes_take_ne_nil hkb hk,
                sliceBytes_take_subsegment (Nat.le_of_lt hkb)⟩
          · rcases List.mem_cons.mp hw with rfl | hw
            · exact ⟨sliceBytes_take_ne_nil hk2 hk2l,
                sliceBytes_take_subsegment (Nat.le_of_lt hk2)⟩
            · exact hprops w hw
    · have hkl2 : k = s.length := by omega
      subst hkl2
      rw [hLtake]
      unfold walkNoHmm
      rw [if_neg (lt_irrefl _)]
      cases left with
      | none =>
        refine ⟨[], rfl, ?_, by intro w hw ; cases hw⟩
        simp [sliceBytes_self]
      | some b =>
        rcases hleft b rfl with ⟨kb, hkb, rfl⟩
        refine ⟨_, rfl, ?_, ?_⟩
        · simp
        · intro w hw
          rcases List.mem_singleton.mp hw with rfl
          rw [← hLtake]
          exact ⟨sliceBytes_take_ne_nil hkb (Nat.le_refl _),
            sliceBytes_take_subsegment (Nat.le_of_lt hkb)⟩

/-! ### The HMM walk: completion, concatenation, word shape -/

theorem walkHmm_run (j : Jieba) (lg : Nat → ℤ) (hp : HmmParams) (s : List Char) :
    ∀ fuel k (left : Option Nat), k ≤ s.length → s.length - k ≤ fuel →
    (∀ b, left = some b → ∃ kb, kb < k ∧ b = byteLen (s.take kb)) →
    ∃ ws, j.walkHmm hp s (j.calcRoute lg s (j.dagOf s)) fuel (byteLen (s.take k)) left
        = some ws ∧
      joinL ws = sliceBytes s (left.getD (byteLen (s.take k))) (byteLen s) ∧
      ∀ w ∈ ws, w ≠ [] ∧ isSubsegment w s := by
  have hLtake : byteLen (s.take s.length) = byteLen s := by rw [List.take_length]
  have hterm : ∀ (left : Option Nat),
      (∀ b, left = some b → ∃ kb, kb < s.length ∧ b = byteLen (s.take kb)) →
      ∃ ws, (match left with
             | some b => j.flushLeftHmm hp s b (byteLen s)
             | none => []) = ws ∧
        joinL ws = sliceBytes s (left.getD (byteLen s)) (byteLen s) ∧
        ∀ w ∈ ws, w ≠ [] ∧ isSubsegment w s := by
    intro left hleft
    cases left with
    | none =>
      refine ⟨[], rfl, ?_, by intro w hw ; cases hw⟩
      simp [sliceBytes_self]
    | some b =>
      rcases hleft b rfl with ⟨kb, hkb, rfl⟩
      refine ⟨_, rfl, ?_, ?_⟩
      · simp only [Option.getD]
        rw [flushLeftHmm_eq, specFlushHmm_join]
      · intro w hw
        dsimp only at hw
        rw [flushLeftHmm_eq] at hw
        have hspan : sliceBytes s (byteLen (s.take kb)) (byteLen s) ≠ [] := by
          rw [← hLtake]
          exact sliceBytes_take_ne_nil hkb (Nat.le_refl _)
        rcases specFlushHmm_props j hp _ hspan w hw with ⟨hne, hsub⟩
        refine ⟨hne, isSubsegment_trans hsub ?_⟩
        rw [← hLtake]
        exact sliceBytes_take_subsegment (Nat.le_of_lt hkb)
  intro fuel
  induction fuel with
  | zero =>
    intro k left hk hfuel hleft
    have hkl : k = s.length := by omega
    subst hkl
    rw [hLtake]
    unfold Jieba.walkHmm
    rw [if_neg (lt_irrefl _)]
    rcases hterm left hleft with ⟨ws, hws, hjoin, hprops⟩
    exact ⟨ws, by rw [hws], hjoin, hprops⟩
  | succ fuel ih =>
    intro k left hk hfuel hleft
    rcases Nat.lt_or_ge k s.length with hkl | hkl
    · have hx : byteLen (s.take k) < byteLen s := byteLen_take_lt_of_index hkl
      rcases calcRoute_progress j lg s k hkl with ⟨k2, hk2, hk2l, hy⟩
      unfold Jieba.walkHmm
      rw [if_pos hx, hy]
      by_cases hsingle :
          (sliceBytes s (byteLen (s.take k)) (byteLen (s.take k2))).length = 1
      · rw [if_pos hsingle]
        have hleft2 : ∀ b,
            (match left with
             | none => some (byteLen (s.take k))
             | some b => some b) = some b →
            ∃ kb, kb < k2 ∧ b = byteLen (s.take kb) := by
          intro b hb
          cases left with
          | none =>
            injection hb with hb
            exact ⟨k, hk2, hb.symm⟩
          | some b0 =>
            injection hb with hb
            rcases hleft b0 rfl with ⟨kb, hkb, rfl⟩
            exact ⟨kb, by omega, hb.symm⟩
        rcases ih k2 _ hk2l (by omega) hleft2 with ⟨ws, hws, hjoin, hprops⟩
        refine ⟨ws, hws, ?_, hprops⟩
        rw [hjoin]
        cases left with
        | none => rfl
        | some b0 => rfl
      · rw [if_neg hsingle]
        rcases ih k2 none hk2l (by omega) (by intro b hb ; cases hb)
          with ⟨ws, hws, hjoin, hprops⟩
        refine ⟨_, by rw [hws] ; rfl, ?_, ?_⟩
        · rw [joinL_append, joinL_cons, hjoin]
          cases left with
          | none =>
            simp only [Option.getD]
            rw [joinL_nil, List.nil_append, ← hLtake]
            rw [sliceBytes_take_append (Nat.le_of_lt hk2) hk2l]
          | some b0 =>
            rcases hleft b0 rfl with ⟨kb, hkb, rfl⟩
            simp only [Option.getD]
            rw [flushLeftHmm_eq, specFlushHmm_join, ← hLtake]
            rw [sliceBytes_take_append (Nat.le_of_lt hk2) hk2l]
            rw [sliceBytes_take_append (Nat.le_of_lt hkb) hk]
        · intro w hw
          rcases List.mem_append.mp hw with hw | hw
          · cases left with
            | none => cases hw
            | some b0 =>
              rcases hleft b0 rfl with ⟨kb, hkb, rfl⟩
              dsimp only at hw
              rw [flushLeftHmm_eq] at hw
              have hspan : sliceBytes s (byteLen (s.take kb)) (byteLen (s.take k)) ≠ [] :=
                sliceBytes_take_ne_nil hkb hk
              rcases specFlushHmm_props j hp _ hspan w hw with ⟨hne, hsub⟩
              exact ⟨hne, isSubsegment_trans hsub
                (sliceBytes_take_subsegment (Nat.le_of_lt hkb))⟩
          · rcases List.mem_cons.mp hw with rfl | hw
            · exact ⟨sliceBytes_take_ne_nil hk2 hk2l,
                sliceBytes_take_subsegment (Nat.le_of_lt hk2)⟩
            · exact hprops w hw
    · have hkl2 : k = s.length := by omega
      subst hkl2
      rw [hLtake]
      unfold Jieba.walkHmm
      rw [if_neg (lt_irrefl _)]
      rcases hterm left hleft with ⟨ws, hws, hjoin, hprops⟩
      exact ⟨ws, by rw [hws], hjoin, hprops⟩

/-! ### Skip splitter lemmas -/

theorem splitSkipDefault_join (block : List Char) :
    joinL ((splitSkipDefault block).map Prod.snd) = block := by
  induction block using splitSkipDefault.induct with
  | case1 => rfl
  | case2 c h => simp [splitSkipDefault, h]
  | case3 c h => simp [splitSkipDefault, h]
  | case4 c d cs h ih =>
    obtain ⟨rfl, rfl⟩ := h
    simp only [splitSkipDefault, if_pos (And.intro rfl rfl)]
    simp [ih]
  | case5 c d cs h1 h2 ih =>
    simp only [splitSkipDefault, if_neg h1, if_pos h2]
    simp [ih]
  | case6 c d cs h1 h2 r rest hm ih =>
    simp only [splitSkipDefault, if_neg h1, if_neg h2, hm]
    rw [hm] at ih
    simp at ih ⊢
    simp [ih]
  | case7 c d cs h1 h2 hm ih =>
    simp only [splitSkipDefault, if_neg h1, if_neg h2]
    cases hsp : splitSkipDefault (d :: cs) with
    | nil => rw [hsp] at ih ; simp at ih
    | cons q l =>
      obtain ⟨b, r⟩ := q
      cases b with
      | false => exact absurd hsp (by intro hcon ; exact hm r l hcon)
      | true =>
        rw [hsp] at ih
        simp at ih ⊢
        simp [ih]

theorem splitSkipDefault_ne_nil (block : List Char) :
    ∀ q ∈ splitSkipDefault block, q.2 ≠ [] := by
  induction block using splitSkipDefault.induct with
  | case1 => intro q hq ; cases hq
  | case2 c h =>
    intro q hq
    simp [splitSkipDefault, h] at hq
    simp [hq]
  | case3 c h =>
    intro q hq
    simp [splitSkipDefault, h] at hq
    simp [hq]
  | case4 c d cs h ih =>
    obtain ⟨rfl, rfl⟩ := h
    intro q hq
    simp only [splitSkipDefault, if_pos (And.intro rfl rfl)] at hq
    rcases List.mem_cons.mp hq with rfl | hq
    · simp
    · exact ih q hq
  | case5 c d cs h1 h2 ih =>
    intro q hq
    simp only [splitSkipDefault, if_neg h1, if_pos h2] at hq
    rcases List.mem_cons.mp hq with rfl | hq
    · simp
    · exact ih q hq
  | case6 c d cs h1 h2 r rest hm ih =>
    intro q hq
    simp only [splitSkipDefault, if_neg h1, if_neg h2, hm] at hq
    rcases List.mem_cons.mp hq with rfl | hq
    · simp
    · exact ih q (hm ▸ List.mem_cons_of_mem _ hq)
  | case7 c d cs h1 h2 hm ih =>
    intro q hq
    simp only [splitSkipDefault, if_neg h1, if_neg h2] at hq
    cases hsp : splitSkipDefault (d :: cs) with
    | nil =>
      rw [hsp] at hq
      rcases List.mem_cons.mp hq with rfl | hq
      · simp
      · rw [hsp] at ih ; cases hq
    | cons p l =>
      obtain ⟨b, r⟩ := p
      cases b with
      | false => exact absurd hsp (by intro hcon ; exact hm r l hcon)
      | true =>
        rw [hsp] at hq
        rcases List.mem_cons.mp hq with rfl | hq
        · simp
        · exact ih q (hsp ▸ hq)

theorem splitSkipCutAll_join (block : List Char) :
    joinL ((splitSkipCutAll block).map Prod.snd) = block := by
  induction block using splitSkipCutAll.induct with
  | case1 => rfl
  | case2 c cs h ih =>
    simp only [splitSkipCutAll, if_pos h]
    simp [ih]
  | case3 c cs h r rest hm ih =>
    simp only [splitSkipCutAll, if_neg h, hm]
    rw [hm] at ih
    simp at ih ⊢
    simp [ih]
  | case4 c cs h hm ih =>
    simp only [splitSkipCutAll, if_neg h]
    cases hsp : splitSkipCutAll cs with
    | nil => rw [hsp] at ih ; simp at ih ; simp [ih]
    | cons q l =>
      obtain ⟨b, r⟩ := q
      cases b with
      | false => exact absurd hsp (by intro hcon ; exact hm r l hcon)
      | true =>
        rw [hsp] at ih
        simp at ih ⊢
        simp [ih]

theorem splitSkipCutAll_ne_nil (block : List Char) :
    ∀ q ∈ splitSkipCutAll block, q.2 ≠ [] := by
  induction block using splitSkipCutAll.induct with
  | case1 => intro q hq ; cases hq
  | case2 c cs h ih =>
    intro q hq
    simp only [splitSkipCutAll, if_pos h] at hq
    rcases List.mem_cons.mp hq with rfl | hq
    · simp
    · exact ih q hq
  | case3 c cs h r rest hm ih =>
    intro q hq
    simp only [splitSkipCutAll, if_neg h, hm] at hq
    rcases List.mem_cons.mp hq with rfl | hq
    · simp
    · exact ih q (hm ▸ List.mem_cons_of_mem _ hq)
  | case4 c cs h hm ih =>
    intro q hq
    simp only [splitSkipCutAll, if_neg h] at hq
    cases hsp : splitSkipCutAll cs with
    | nil =>
      rw [hsp] at hq
      rcases List.mem_cons.mp hq with rfl | hq
      · simp
      · cases hq
    | cons p l =>
      obtain ⟨b, r⟩ := p
      cases b with
      | false => exact absurd hsp (by intro hcon ; exact hm r l hcon)
      | true =>
        rw [hsp] at hq
        rcases List.mem_cons.mp hq with rfl | hq
        · simp
        · exact ih q (hsp ▸ hq)

/-! ### Gap handler lemmas -/

theorem handleUnmatchedDefault_join (block : List Char) :
    joinL (handleUnmatchedDefault block) = block := by
  unfold handleUnmatchedDefault
  rw [joinL_catMap (g := Prod.snd) ?_]
  · exact splitSkipDefault_join block
  · intro q hq
    by_cases he : q.2.isEmpty
    · rw [if_pos he, List.isEmpty_iff.mp he] ; rfl
    · rw [if_neg he]
      by_cases ha : q.2.any isUniWhite
      · rw [if_pos ha] ; simp
      · rw [if_neg ha] ; exact joinL_singleton_map _

theorem handleUnmatchedDefault_props (block : List Char) :
    ∀ w ∈ handleUnmatchedDefault block, w ≠ [] ∧ isSubsegment w block := by
  intro w hw
  unfold handleUnmatchedDefault at hw
  rcases mem_catMap.mp hw with ⟨q, hq, hw2⟩
  have hqne := splitSkipDefault_ne_nil block q hq
  have hqsub : isSubsegment q.2 block := by
    have := isSubsegment_of_mem_joinL
      (l := (splitSkipDefault block).map Prod.snd) (List.mem_map_of_mem Prod.snd hq)
    rwa [splitSkipDefault_join] at this
  by_cases he : q.2.isEmpty
  · rw [if_pos he] at hw2 ; cases hw2
  · rw [if_neg he] at hw2
    by_cases ha : q.2.any isUniWhite
    · rw [if_pos ha] at hw2
      rcases List.mem_singleton.mp hw2 with rfl
      exact ⟨hqne, hqsub⟩
    · rw [if_neg ha] at hw2
      rcases List.mem_map.mp hw2 with ⟨c, hc, rfl⟩
      refine ⟨by simp, isSubsegment_trans ?_ hqsub⟩
      have := isSubsegment_of_mem_joinL (List.mem_map_of_mem (fun c => [c]) hc)
      rwa [joinL_singleton_map] at this

theorem handleUnmatchedCutAll_join (block : List Char) :
    joinL (handleUnmatchedCutAll block) = block := by
  unfold handleUnmatchedCutAll
  rw [joinL_catMap (g := Prod.snd) ?_]
  · exact splitSkipCutAll_join block
  · intro q hq
    by_cases he : q.2.isEmpty
    · rw [if_pos he, List.isEmpty_iff.mp he] ; rfl
    · rw [if_neg he] ; simp

theorem handleUnmatchedCutAll_props (block : List Char) :
    ∀ w ∈ handleUnmatchedCutAll block, w ≠ [] ∧ isSubsegment w block := by
  intro w hw
  unfold handleUnmatchedCutAll at hw
  rcases mem_catMap.mp hw with ⟨q, hq, hw2⟩
  have hqne := splitSkipCutAll_ne_nil block q hq
  have hqsub : isSubsegment q.2 block := by
    have := isSubsegment_of_mem_joinL
      (l := (splitSkipCutAll block).map Prod.snd) (List.mem_map_of_mem Prod.snd hq)
    rwa [splitSkipCutAll_join] at this
  by_cases he : q.2.isEmpty
  · rw [if_pos he] at hw2 ; cases hw2
  · rw [if_neg he] at hw2
    rcases List.mem_singleton.mp hw2 with rfl
    exact ⟨hqne, hqsub⟩

/-! ### Per-block cut lemmas -/

theorem cut_all_internal_props (j : Jieba) (block : List Char) :
    ∀ w ∈ j.cut_all_internal block, w ≠ [] ∧ isSubsegment w block := by
  intro w hw
  unfold Jieba.cut_all_internal at hw
  rcases mem_catMap.mp hw with ⟨b, hb, hw2⟩
  rcases mem_charStarts.mp hb with ⟨k, hk, rfl⟩
  rcases List.mem_map.mp hw2 with ⟨e, he, rfl⟩
  rcases dagOf_spec hk he with ⟨k2, h1, h2, rfl, _⟩
  exact ⟨sliceBytes_take_ne_nil h1 h2, sliceBytes_take_subsegment (Nat.le_of_lt h1)⟩

theorem cut_dag_no_hmm_run (j : Jieba) (lg : Nat → ℤ) (block : List Char) :
    walkNoHmm block (j.calcRoute lg block (j.dagOf block)) block.length 0 none
      = some (j.cut_dag_no_hmm lg block) ∧
    joinL (j.cut_dag_no_hmm lg block) = block ∧
    ∀ w ∈ j.cut_dag_no_hmm lg block, w ≠ [] ∧ isSubsegment w block := by
  have h0 : byteLen (block.take 0) = 0 := by simp
  rcases walkNoHmm_run j lg block block.length 0 none (Nat.zero_le _) (by omega)
    (by intro b hb ; cases hb) with ⟨ws, hws, hjoin, hprops⟩
  rw [h0] at hws hjoin
  unfold Jieba.cut_dag_no_hmm
  rw [hws]
  simp only [Option.getD_some]
  refine ⟨by simp, ?_, hprops⟩
  rw [hjoin]
  simp only [Option.getD_none]
  exact sliceBytes_zero_byteLen block

theorem cut_dag_hmm_run (j : Jieba) (lg : Nat → ℤ) (hp : HmmParams) (block : List Char) :
    j.walkHmm hp block (j.calcRoute lg block (j.dagOf block)) block.length 0 none
      = some (j.cut_dag_hmm lg hp block) ∧
    joinL (j.cut_dag_hmm lg hp block) = block ∧
    ∀ w ∈ j.cut_dag_hmm lg hp block, w ≠ [] ∧ isSubsegment w block := by
  have h0 : byteLen (block.take 0) = 0 := by simp
  rcases walkHmm_run j lg hp block block.length 0 none (Nat.zero_le _) (by omega)
    (by intro b hb ; cases hb) with ⟨ws, hws, hjoin, hprops⟩
  rw [h0] at hws hjoin
  unfold Jieba.cut_dag_hmm
  rw [hws]
  simp only [Option.getD_some]
  refine ⟨by simp, ?_, hprops⟩
  rw [hjoin]
  simp only [Option.getD_none]
  exact sliceBytes_zero_byteLen block

/-! ### Whole-input cut lemmas -/

theorem cut_internal_join (j : Jieba) (lg : Nat → ℤ) (hp : HmmParams)
    (s : List Char) (hmm : Bool) :
    joinL (j.cut_internal lg hp s false hmm) = s := by
  unfold Jieba.cut_internal
  rw [joinL_catMap (g := Prod.snd) ?_]
  · simp only [Bool.false_eq_true, if_false]
    exact joinL_splitRuns _ s
  · intro q hq
    cases hb : q.1 with
    | true =>
      simp only [if_true, Bool.false_eq_true, if_false]
      cases hmm with
      | true => exact (cut_dag_hmm_run j lg hp q.2).2.1
      | false => exact (cut_dag_no_hmm_run j lg q.2).2.1
    | false =>
      simp only [Bool.false_eq_true, if_false]
      exact handleUnmatchedDefault_join q.2

theorem cut_internal_props (j : Jieba) (lg : Nat → ℤ) (hp : HmmParams)
    (s : List Char) (cutAll hmm : Bool) :
    ∀ w ∈ j.cut_internal lg hp s cutAll hmm, w ≠ [] ∧ isSubsegment w s := by
  intro w hw
  unfold Jieba.cut_internal at hw
  rcases mem_catMap.mp hw with ⟨q, hq, hw2⟩
  have hqsub : isSubsegment q.2 s := by
    have := isSubsegment_of_mem_joinL
      (l := (splitRuns (if cutAll then isHanCutAll else isHanDefault) s).map Prod.snd)
      (List.mem_map_of_mem Prod.snd hq)
    rwa [joinL_splitRuns] at this
  have hblock : ∀ v ∈ (if q.1 then
        if cutAll then j.cut_all_internal q.2
        else if hmm then j.cut_dag_hmm lg hp q.2
        else j.cut_dag_no_hmm lg q.2
      else
        if cutAll then handleUnmatchedCutAll q.2 else handleUnmatchedDefault q.2),
      v ≠ [] ∧ isSubsegment v q.2 := by
    cases q.1 with
    | true =>
      simp only [if_true]
      cases cutAll with
      | true => simpa using cut_all_internal_props j q.2
      | false =>
        cases hmm with
        | true => simpa using (cut_dag_hmm_run j lg hp q.2).2.2
        | false => simpa using (cut_dag_no_hmm_run j lg q.2).2.2
    | false =>
      simp only [Bool.false_eq_true, if_false]
      cases cutAll with
      | true => simpa using handleUnmatchedCutAll_props q.2
      | false => simpa using handleUnmatchedDefault_props q.2
  rcases hblock w hw2 with ⟨hne, hsub⟩
  exact ⟨hne, isSubsegment_trans hsub hqsub⟩

/-! ### The walks refine the spec's state machines -/

theorem routeSteps_zero (route : Nat → ℤ × Nat) (L x : Nat) :
    routeSteps route L 0 x = [] := rfl

theorem routeSteps_succ (route : Nat → ℤ × Nat) (L fuel x : Nat) :
    routeSteps route L (fuel + 1) x =
      if x < L then (x, (route x).2) :: routeSteps route L fuel (route x).2 else [] := rfl

theorem specScanNoHmm_cons (s : List Char) (x y : Nat) (rest : List (Nat × Nat))
    (st : Option Nat) :
    specScanNoHmm s ((x, y) :: rest) st =
      if isSingleAlnum (sliceBytes s x y) then
        specScanNoHmm s rest (some (st.getD x))
      else
        (match st with | some b => [sliceBytes s b x] | none => []) ++
          sliceBytes s x y :: specScanNoHmm s rest none := rfl

theorem specScanHmm_cons (j : Jieba) (hp : HmmParams) (s : List Char) (x y : Nat)
    (rest : List (Nat × Nat)) (st : Option Nat) :
    specScanHmm j hp s ((x, y) :: rest) st =
      if (sliceBytes s x y).length = 1 then
        specScanHmm j hp s rest (some (st.getD x))
      else
        (match st with | some b => specFlushHmm j hp (sliceBytes s b x) | none => []) ++
          sliceBytes s x y :: specScanHmm j hp s rest none := rfl

theorem walkNoHmm_eq_specScan (s : List Char) (route : Nat → ℤ × Nat) :
    ∀ fuel x (left : Option Nat) ws, walkNoHmm s route fuel x left = some ws →
    ws = specScanNoHmm s (routeSteps route (byteLen s) fuel x) left := by
  intro fuel
  induction fuel with
  | zero =>
    intro x left ws h
    unfold walkNoHmm at h
    by_cases hx : x < byteLen s
    · rw [if_pos hx] at h ; cases h
    · rw [if_neg hx] at h
      injection h with h
      rw [routeSteps_zero]
      cases left with
      | none => rw [← h] ; rfl
      | some b => rw [← h] ; rfl
  | succ fuel ih =>
    intro x left ws h
    unfold walkNoHmm at h
    rw [routeSteps_succ]
    by_cases hx : x < byteLen s
    · rw [if_pos hx] at h ⊢
      rw [specScanNoHmm_cons]
      by_cases hs1 : isSingleAlnum (sliceBytes s x (route x).2) = true
      · rw [if_pos hs1] at h ⊢
        rw [ih _ _ _ h]
        cases left with
        | none => rfl
        | some b => rfl
      · rw [if_neg hs1] at h ⊢
        rcases Option.map_eq_some'.mp h with ⟨ws2, hws2, rfl⟩
        rw [ih _ _ _ hws2]
    · rw [if_neg hx] at h ⊢
      injection h with h
      cases left with
      | none => rw [← h] ; rfl
      | some b => rw [← h] ; rfl

theorem walkHmm_eq_specScan (j : Jieba) (hp : HmmParams) (s : List Char)
    (route : Nat → ℤ × Nat) :
    ∀ fuel x (left : Option Nat) ws, j.walkHmm hp s route fuel x left = some ws →
    ws = specScanHmm j hp s (routeSteps route (byteLen s) fuel x) left := by
  intro fuel
  induction fuel with
  | zero =>
    intro x left ws h
    unfold Jieba.walkHmm at h
    by_cases hx : x < byteLen s
    · rw [if_pos hx] at h ; cases h
    · rw [if_neg hx] at h
      injection h with h
      rw [routeSteps_zero]
      cases left with
      | none => rw [← h] ; rfl
      | some b => rw [← h] ; rfl
  | succ fuel ih =>
    intro x left ws h
    unfold Jieba.walkHmm at h
    rw [routeSteps_succ]
    by_cases hx : x < byteLen s
    · rw [if_pos hx] at h ⊢
      rw [specScanHmm_cons]
      by_cases hs1 : (sliceBytes s x (route x).2).length = 1
      · rw [if_pos hs1] at h ⊢
        rw [ih _ _ _ h]
        cases left with
        | none => rfl
        | some b => rfl
      · rw [if_neg hs1] at h ⊢
        rcases Option.map_eq_some'.mp h with ⟨ws2, hws2, rfl⟩
        rw [ih _ _ _ hws2]
        cases left with
        | none => rfl
        | some b => rfl
    · rw [if_neg hx] at h ⊢
      injection h with h
      cases left with
      | none => rw [← h] ; rfl
      | some b => rw [← h] ; rfl

/-! ### Exact-match search lemmas -/

theorem findSome?_mem {f : α → Option β} :
    ∀ {l : List α} {b : β}, l.findSome? f = some b → ∃ a ∈ l, f a = some b := by
  intro l
  induction l with
  | nil => intro b h ; cases h
  | cons x t ih =>
    intro b h
    cases hfx : f x with
    | some v =>
      rw [List.findSome?_cons, hfx] at h
      injection h with h
      exact ⟨x, List.mem_cons_self _ _, by rw [hfx, h]⟩
    | none =>
      rw [List.findSome?_cons, hfx] at h
      rcases ih h with ⟨a, ha, hfa⟩
      exact ⟨a, List.mem_cons_of_mem _ ha, hfa⟩

theorem findIdxAux_ge {p : α → Bool} :
    ∀ {l : List α} {st i : Nat}, findIdxAux p l st = some i → st ≤ i := by
  intro l
  induction l with
  | nil => intro st i h ; cases h
  | cons a t ih =>
    intro st i h
    unfold findIdxAux at h
    by_cases hp : p a = true
    · rw [if_pos hp] at h ; injection h with h ; omega
    · rw [if_neg hp] at h
      have := ih h
      omega

theorem findIdxAux_get {p : α → Bool} :
    ∀ {l : List α} {st i : Nat}, findIdxAux p l st = some i →
    ∃ a, l.get? (i - st) = some a ∧ p a = true := by
  intro l
  induction l with
  | nil => intro st i h ; cases h
  | cons a t ih =>
    intro st i h
    unfold findIdxAux at h
    by_cases hp : p a = true
    · rw [if_pos hp] at h
      injection h with h
      subst h
      exact ⟨a, by simp, hp⟩
    · rw [if_neg hp] at h
      have hge := findIdxAux_ge h
      rcases ih h with ⟨b, hb, hpb⟩
      refine ⟨b, ?_, hpb⟩
      have : i - st = (i - (st + 1)) + 1 := by omega
      rw [this]
      simpa using hb

theorem findIdxAux_isSome {p : α → Bool} :
    ∀ {l : List α} (st : Nat), (∃ a ∈ l, p a = true) → (findIdxAux p l st).isSome := by
  intro l
  induction l with
  | nil => intro st h ; rcases h with ⟨a, ha, _⟩ ; cases ha
  | cons a t ih =>
    intro st h
    unfold findIdxAux
    by_cases hp : p a = true
    · rw [if_pos hp] ; rfl
    · rw [if_neg hp]
      rcases h with ⟨b, hb, hpb⟩
      rcases List.mem_cons.mp hb with rfl | hb
      · exact absurd hpb hp
      · exact ih (st + 1) ⟨b, hb, hpb⟩

theorem fragAt_zero_full (w : List Char) : fragAt w 0 w.length = w := by
  unfold fragAt
  simp

theorem firstMatchAt_full {recs : List DictRecord} {w : List Char}
    (hw : w ≠ []) (hmem : ∃ r ∈ recs, r.1 = w) :
    ∃ id, firstMatchAt recs w 0 = some (w.length, id) ∧
      ∃ r, recs.get? id = some r ∧ r.1 = w := by
  have hlen : 1 ≤ w.length := by
    cases w with
    | nil => exact absurd rfl hw
    | cons c t => simp
  have hsome : (findIdxAux (fun r => r.1 == fragAt w 0 ((w.length - 1) + 1)) recs 0).isSome := by
    apply findIdxAux_isSome
    rcases hmem with ⟨r, hr, hrw⟩
    refine ⟨r, hr, ?_⟩
    rw [show w.length - 1 + 1 = w.length by omega, fragAt_zero_full, hrw]
    simp
  rcases Option.isSome_iff_exists.mp hsome with ⟨id, hid⟩
  refine ⟨id, ?_, ?_⟩
  · unfold firstMatchAt
    rw [Nat.sub_zero, show w.length = (w.length - 1) + 1 by omega, List.range_succ]
    rw [List.reverse_append]
    simp only [List.reverse_cons, List.reverse_nil, List.nil_append, List.singleton_append]
    rw [List.findSome?_cons]
    rw [hid]
  · rcases findIdxAux_get hid with ⟨r, hr, hpr⟩
    rw [Nat.sub_zero] at hr
    refine ⟨r, hr, ?_⟩
    rw [show w.length - 1 + 1 = w.length by omega, fragAt_zero_full] at hpr
    simpa using hpr

theorem take_ne_nil_of_lt {w : List Char} {i : Nat} (hi : i < w.length) (L : Nat) :
    (w.drop i).take (L + 1) ≠ [] := by
  intro hcon
  have h1 : ((w.drop i).take (L + 1)).length = 0 := by rw [hcon] ; rfl
  rw [List.length_take, List.length_drop] at h1
  omega

theorem byteLen_take_eq_full {w : List Char} {m : Nat}
    (h : byteLen (w.take m) = byteLen w) : w.take m = w := by
  rcases Nat.lt_or_ge m w.length with hm | hm
  · exact absurd h (Nat.ne_of_lt (byteLen_take_lt_of_index hm))
  · exact List.take_of_length_le hm

theorem exact_match_search_of_word {j : Jieba} {w : List Char}
    (hw : w ≠ []) (hmem : ∃ r ∈ j.records, r.1 = w) :
    ∃ id, j.exact_match_search w = some id ∧
      ∃ r, j.records.get? id = some r ∧ r.1 = w := by
  rcases firstMatchAt_full hw hmem with ⟨id, hfm, r, hr, hrw⟩
  have hlen : 1 ≤ w.length := by
    cases w with
    | nil => exact absurd rfl hw
    | cons c t => simp
  have hll : leftmostLongest j.records w = some (0, w.length, id) := by
    unfold leftmostLongest
    have hr0 : List.range w.length = 0 :: (List.range (w.length - 1)).map Nat.succ := by
      conv_lhs => rw [show w.length = (w.length - 1) + 1 by omega]
      exact List.range_succ_eq_map _
    rw [hr0, List.findSome?_cons, hfm]
    rfl
  refine ⟨id, ?_, r, hr, hrw⟩
  unfold Jieba.exact_match_search
  rw [hll]
  dsimp only
  rw [if_pos ?_]
  rw [fragAt_zero_full]
  simp

theorem exact_match_search_suffix {j : Jieba} {w : List Char} {id : Nat}
    (h : j.exact_match_search w = some id) :
    ∃ r, j.records.get? id = some r ∧ r.1 ≠ [] ∧ ∃ pre, w = pre ++ r.1 := by
  unfold Jieba.exact_match_search at h
  cases hll : leftmostLongest j.records w with
  | none => rw [hll] at h ; cases h
  | some t =>
    obtain ⟨i, L, id2⟩ := t
    rw [hll] at h
    dsimp only at h
    by_cases hend : byteLen w = byteLen (w.take i) + byteLen (fragAt w i L)
    · rw [if_pos hend] at h
      injection h with h
      subst h
      unfold leftmostLongest at hll
      rcases findSome?_mem hll with ⟨i2, hi2, hfi⟩
      simp only [List.mem_range] at hi2
      cases hfm : firstMatchAt j.records w i2 with
      | none => rw [hfm] at hfi ; cases hfi
      | some p =>
        rw [hfm] at hfi
        obtain ⟨L2, id3⟩ := p
        simp only [Option.map_some', Option.some.injEq, Prod.mk.injEq] at hfi
        obtain ⟨rfl, rfl, rfl⟩ := hfi
        unfold firstMatchAt at hfm
        rcases findSome?_mem hfm with ⟨k, hk, hfk⟩
        simp only [List.mem_reverse, List.mem_range] at hk
        cases hidx : findIdxAux (fun r => r.1 == fragAt w i2 (k + 1)) j.records 0 with
        | none => rw [hidx] at hfk ; cases hfk
        | some id4 =>
          rw [hidx] at hfk
          injection hfk with hfk
          rw [Prod.mk.injEq] at hfk
          obtain ⟨hfk1, hfk2⟩ := hfk
          rcases findIdxAux_get hidx with ⟨r, hrget, hpr⟩
          rw [Nat.sub_zero] at hrget
          have hreq : r.1 = fragAt w i2 (k + 1) := by simpa using hpr
          subst hfk2
          refine ⟨r, hrget, ?_, w.take i2, ?_⟩
          · rw [hreq]
            exact take_ne_nil_of_lt hi2 k
          · rw [hreq]
            rw [← hfk1] at hend
            have hfull : byteLen (w.take (i2 + (k + 1))) = byteLen w := by
              rw [← take_append_fragAt w i2 (k + 1), byteLen_append]
              omega
            have := byteLen_take_eq_full hfull
            rw [take_append_fragAt w i2 (k + 1)]
            exact this.symm
    · rw [if_neg hend] at h
      cases h

/-! ### Search extras and tag lemmas -/

theorem filterMap_if_eq_map_filter {f : α → List Char} {p : List Char → Bool} :
    ∀ (l : List α),
    l.filterMap (fun a => if p (f a) then some (f a) else none) = (l.map f).filter p := by
  intro l
  induction l with
  | nil => rfl
  | cons a t ih =>
    by_cases hpa : p (f a) = true
    · simp [List.filterMap_cons, List.filter_cons, hpa, ih]
    · simp [List.filterMap_cons, List.filter_cons, hpa, ih]

theorem catMap_congr {f g : α → List β} {l : List α} (h : ∀ a ∈ l, f a = g a) :
    catMap f l = catMap g l := by
  induction l with
  | nil => rfl
  | cons a t ih =>
    simp only [catMap_cons]
    rw [h a (List.mem_cons_self _ _), ih (fun x hx => h x (List.mem_cons_of_mem _ hx))]

theorem cut_for_search_eq_spec (j : Jieba) (lg : Nat → ℤ) (hp : HmmParams)
    (s : List Char) (hmm : Bool) :
    j.cut_for_search lg hp s hmm = catMap (specSearchEmit j) (j.cut lg hp s hmm) := by
  unfold Jieba.cut_for_search
  apply catMap_congr
  intro word _
  unfold specSearchEmit specGramExtras
  congr 1
  congr 1
  · by_cases h2 : 2 < word.length
    · rw [if_pos h2, if_pos h2, show word.length + 1 - 2 = word.length - 1 by omega]
      exact filterMap_if_eq_map_filter (f := fun i => (word.drop i).take 2)
        (p := fun frag => (j.exact_match_search frag).isSome) _
    · rw [if_neg h2, if_neg h2]
  · by_cases h3 : 3 < word.length
    · rw [if_pos h3, if_pos h3, show word.length + 1 - 3 = word.length - 2 by omega]
      exact filterMap_if_eq_map_filter (f := fun i => (word.drop i).take 3)
        (p := fun frag => (j.exact_match_search frag).isSome) _
    · rw [if_neg h3, if_neg h3]

theorem specGramExtras_contains (j : Jieba) (w : List Char) (g : Nat) :
    ∀ x ∈ specGramExtras j w g, (j.exact_match_search x).isSome = true := by
  intro x hx
  unfold specGramExtras at hx
  exact (List.mem_filter.mp hx).2

theorem countP_alnum_and_digit (w : List Char) :
    w.countP (fun c => isAsciiAlnum c && isAsciiDigit c) =
      w.countP (fun c => isAsciiDigit c) := by
  have hfun : (fun c => isAsciiAlnum c && isAsciiDigit c) =
      (fun c => isAsciiDigit c) := by
    funext c
    cases hd : isAsciiDigit c
    · simp
    · have ha : isAsciiAlnum c = true := by
        unfold isAsciiAlnum
        unfold isAsciiDigit at hd
        rw [hd]
        rfl
      rw [ha]
      rfl
  rw [hfun]

theorem tag_eq_spec (j : Jieba) (lg : Nat → ℤ) (hp : HmmParams)
    (s : List Char) (hmm : Bool) :
    j.tag lg hp s hmm = (j.cut lg hp s hmm).map (fun w => (w, specTagOf j w)) := by
  unfold Jieba.tag
  apply map_congr_mem
  intro w _
  unfold specTagOf
  cases hx : j.exact_match_search w with
  | some id => simp only [hx]
  | none =>
    simp only [hx]
    by_cases h0 : w.countP (fun c => isAsciiAlnum c) = 0
    · rw [if_pos h0, if_pos h0]
    · rw [if_neg h0, if_neg h0, countP_alnum_and_digit]
      by_cases h1 : w.countP (fun c => isAsciiAlnum c) = w.countP (fun c => isAsciiDigit c)
      · rw [if_pos h1, if_pos h1]
      · rw [if_neg h1, if_neg h1]

/-! ### Construction lemmas -/

theorem parseLine_none_iff (line : List Char) :
    parseLine line = none ↔ lineMalformed line = true := by
  unfold parseLine lineMalformed
  cases splitWs line with
  | nil => simp
  | cons w rest =>
    cases rest with
    | nil => simp
    | cons f rest2 =>
      cases hp : parseUsize f <;> simp [hp]

theorem parseLine_of_ok {line : List Char} (h : lineMalformed line = false) :
    parseLine line = some (expectedRecord line) := by
  unfold lineMalformed at h
  unfold parseLine expectedRecord
  cases hsw : splitWs line with
  | nil => rfl
  | cons w rest =>
    rw [hsw] at h
    cases rest with
    | nil => rfl
    | cons f rest2 =>
      dsimp only at h
      cases hp : parseUsize f with
      | none => rw [hp] at h ; simp at h
      | some n => simp [hp]

theorem mapM_parseLine_ok : ∀ (lines : List (List Char)),
    (∀ line ∈ lines, lineMalformed line = false) →
    lines.mapM parseLine = some (lines.map expectedRecord) := by
  intro lines
  induction lines with
  | nil => intro _ ; rfl
  | cons l ls ih =>
    intro h
    rw [List.mapM_cons, parseLine_of_ok (h l (List.mem_cons_self _ _)),
      ih (fun x hx => h x (List.mem_cons_of_mem _ hx))]
    rfl

theorem filterMap_id_map (f : α → Option β) :
    ∀ (l : List α), (l.map f).filterMap id = l.filterMap f := by
  intro l
  induction l with
  | nil => rfl
  | cons a t ih =>
    cases hf : f a <;> simp [List.filterMap_cons, hf, ih]

theorem newFromLines_ok (lines : List (List Char))
    (h : ∀ line ∈ lines, lineMalformed line = false) :
    Jieba.newFromLines lines = some
      { records := lines.filterMap expectedRecord
        total := ((lines.filterMap expectedRecord).map (fun r => r.2.1)).sum
        longest_word_len := 0 } := by
  unfold Jieba.newFromLines
  rw [mapM_parseLine_ok lines h]
  simp only [filterMap_id_map]

theorem newFromLines_isSome_iff (lines : List (List Char)) :
    (Jieba.newFromLines lines).isSome = true ↔
      ∀ line ∈ lines, lineMalformed line = false := by
  constructor
  · intro h line hline
    by_cases hm : lineMalformed line = true
    · exfalso
      have hnone : lines.mapM parseLine = none := by
        clear h
        induction lines with
        | nil => cases hline
        | cons l ls ih =>
          rw [List.mapM_cons]
          rcases List.mem_cons.mp hline with rfl | hline2
          · rw [(parseLine_none_iff line).mpr hm]
            rfl
          · cases hl : parseLine l with
            | none => rfl
            | some p =>
              rw [ih hline2]
              rfl
      unfold Jieba.newFromLines at h
      rw [hnone] at h
      cases h
    · simpa using hm
  · intro h
    rw [newFromLines_ok lines h]
    rfl

/-! ### Word-shape lemmas for search mode and tokenize -/

theorem drop_take_subsegment (w : List Char) (i g : Nat) :
    isSubsegment ((w.drop i).take g) w := by
  refine ⟨w.take i, (w.drop i).drop g, ?_⟩
  conv_lhs => rw [← List.take_append_drop i w]
  conv_lhs => rw [← List.take_append_drop g (w.drop i)]
  rw [List.append_assoc]

theorem specSearchEmit_props (j : Jieba) (w : List Char) (hw : w ≠ []) :
    ∀ x ∈ specSearchEmit j w, x ≠ [] ∧ isSubsegment x w := by
  have hgram : ∀ g x, x ∈ specGramExtras j w (g + 1) → x ≠ [] ∧ isSubsegment x w := by
    intro g x hx
    unfold specGramExtras at hx
    rcases List.mem_map.mp (List.mem_of_mem_filter hx) with ⟨i, hi, rfl⟩
    simp only [List.mem_range] at hi
    have hiw : i < w.length := by
      have hw1 : 1 ≤ w.length := by
        cases w with
        | nil => exact absurd rfl hw
        | cons c t => simp
      omega
    exact ⟨take_ne_nil_of_lt hiw g, drop_take_subsegment w i (g + 1)⟩
  intro x hx
  unfold specSearchEmit at hx
  rcases List.mem_append.mp hx with hx | hx
  · rcases List.mem_append.mp hx with hx | hx
    · by_cases h2 : 2 < w.length
      · rw [if_pos h2] at hx
        exact hgram 1 x hx
      · rw [if_neg h2] at hx ; cases hx
    · by_cases h3 : 3 < w.length
      · rw [if_pos h3] at hx
        exact hgram 2 x hx
      · rw [if_neg h3] at hx ; cases hx
  · rcases List.mem_singleton.mp hx with rfl
    exact ⟨hw, isSubsegment_refl _⟩

theorem cut_for_search_props (j : Jieba) (lg : Nat → ℤ) (hp : HmmParams)
    (s : List Char) (hmm : Bool) :
    ∀ x ∈ j.cut_for_search lg hp s hmm, x ≠ [] ∧ isSubsegment x s := by
  intro x hx
  rw [cut_for_search_eq_spec] at hx
  rcases mem_catMap.mp hx with ⟨w, hw, hx2⟩
  rcases cut_internal_props j lg hp s false hmm w hw with ⟨hwne, hwsub⟩
  rcases specSearchEmit_props j w hwne x hx2 with ⟨hne, hsub⟩
  exact ⟨hne, isSubsegment_trans hsub hwsub⟩

theorem tokenizeGo_props (j : Jieba) (mode : TokenizeMode) (s : List Char) :
    ∀ (ws : List (List Char)) (start : Nat),
    (∀ w ∈ ws, w ≠ [] ∧ isSubsegment w s) →
    ∀ t ∈ tokenizeGo j mode ws start, t.word ≠ [] ∧ isSubsegment t.word s := by
  intro ws
  induction ws with
  | nil => intro start _ t ht ; cases ht
  | cons word rest ih =>
    intro start hws t ht
    rcases hws word (List.mem_cons_self _ _) with ⟨hwne, hwsub⟩
    unfold tokenizeGo at ht
    rcases List.mem_append.mp ht with ht | ht
    · have hw1 : 1 ≤ word.length := by
        cases word with
        | nil => exact absurd rfl hwne
        | cons c t2 => simp
      cases mode with
      | Default =>
        rcases List.mem_singleton.mp ht with rfl
        exact ⟨hwne, hwsub⟩
      | Search =>
        rcases List.mem_append.mp ht with ht | ht
        · rcases List.mem_append.mp ht with ht | ht
          · by_cases h2 : 2 < word.length
            · rw [if_pos h2] at ht
              rcases List.mem_filterMap.mp ht with ⟨i, hi, hsome⟩
              simp only [List.mem_range] at hi
              by_cases hc : (j.exact_match_search ((word.drop i).take 2)).isSome = true
              · rw [if_pos hc] at hsome
                injection hsome with hsome
                subst hsome
                refine ⟨take_ne_nil_of_lt (by omega) 1, ?_⟩
                exact isSubsegment_trans (drop_take_subsegment word i 2) hwsub
              · rw [if_neg hc] at hsome ; cases hsome
            · rw [if_neg h2] at ht ; cases ht
          · by_cases h3 : 3 < word.length
            · rw [if_pos h3] at ht
              rcases List.mem_filterMap.mp ht with ⟨i, hi, hsome⟩
              simp only [List.mem_range] at hi
              by_cases hc : (j.exact_match_search ((word.drop i).take 3)).isSome = true
              · rw [if_pos hc] at hsome
                injection hsome with hsome
                subst hsome
                refine ⟨take_ne_nil_of_lt (by omega) 2, ?_⟩
                exact isSubsegment_trans (drop_take_subsegment word i 3) hwsub
              · rw [if_neg hc] at hsome ; cases hsome
            · rw [if_neg h3] at ht ; cases ht
        · rcases List.mem_singleton.mp ht with rfl
          exact ⟨hwne, hwsub⟩
    · exact ih (start + word.length) (fun w hw => hws w (List.mem_cons_of_mem _ hw)) t ht

/-! ### The claims -/

/-- C1 counterexample: the claim requires `route[L] = (0, L)`, but `calc`
resizes the route vector with fill `(0.0, 0)` and never writes index `L`,
so for the one-character block "a" (byte length 1) the computed `route[1]`
is `(0, 0)`, not `(0, 1)`. -/
theorem jieba_C1_counterexample :
    (jEmpty.calcRoute lgId ['a'] (jEmpty.dagOf ['a'])) (byteLen ['a'])
      ≠ ((0 : ℤ), byteLen ['a']) := by decide

/-- C1 (amended): for every dictionary, every log map and every block, the
route computed by `calc` agrees with the spec's backward DP at every
code-point start — the maximum of `lg freq − lg total + route[e].0` over
the ends in `dag[i]` paired with that end, the larger end winning score
ties, and the next code-point start as fallback when `dag[i]` is empty —
while at index `L` the code leaves the resize fill `(0, 0)` where the
claim prescribes `(0, L)` (that cell's next-pointer is never read by the
walks, which stop at `L`). -/
theorem jieba_C1_route_spec (j : Jieba) (lg : Nat → ℤ) (s : List Char) :
    (∀ b ∈ charStarts s,
      j.calcRoute lg s (j.dagOf s) b = specRoute j lg s (j.dagOf s) b) ∧
    j.calcRoute lg s (j.dagOf s) (byteLen s) = (0, 0) ∧
    specRoute j lg s (j.dagOf s) (byteLen s) = (0, byteLen s) := by
  refine ⟨?_, calcRoute_at_byteLen j lg s, specRoute_at_byteLen j lg s⟩
  intro b hb
  rcases mem_charStarts.mp hb with ⟨k, hk, rfl⟩
  exact calcRoute_agrees_specRoute j lg s k hk

/-- C1 witness: the amended route equality evaluated on the dictionary
{abc: 10, ab: 1} and block "abc" at byte start 0. -/
theorem jieba_C1_route_spec_witness :
    jABC.calcRoute lgId ['a', 'b', 'c'] (jABC.dagOf ['a', 'b', 'c']) 0 =
      specRoute jABC lgId ['a', 'b', 'c'] (jABC.dagOf ['a', 'b', 'c']) 0 :=
  (jieba_C1_route_spec jABC lgId ['a', 'b', 'c']).1 0 (by decide)

/-- C2 counterexample: `exact_match_search` checks only that the
leftmost-longest match ENDS at the haystack's byte length, not that it
starts at 0; with the dictionary {bc} the non-word "abc" gets `Some`. -/
theorem jieba_C2_counterexample :
    (jBC.exact_match_search ['a', 'b', 'c']).isSome = true ∧
    ∀ r ∈ jBC.records, r.1 ≠ ['a', 'b', 'c'] := by decide

/-- C2 (amended): for every dictionary word `w`, `exact_match_search w`
returns `Some` of an index holding `w` itself; conversely a `Some id`
answer only guarantees that entry `id`'s word is a nonempty SUFFIX of the
query (the code compares the match's end with `len(w)` but never checks
its start), so a non-word may also get `Some`. -/
theorem jieba_C2_exact_match (j : Jieba) (w : List Char) (hw : w ≠ []) :
    ((∃ r ∈ j.records, r.1 = w) →
      ∃ id, j.exact_match_search w = some id ∧
        ∃ r, j.records.get? id = some r ∧ r.1 = w) ∧
    (∀ id, j.exact_match_search w = some id →
      ∃ r, j.records.get? id = some r ∧ r.1 ≠ [] ∧ ∃ pre, w = pre ++ r.1) := by
  constructor
  · intro hmem
    exact exact_match_search_of_word hw hmem
  · intro id h
    exact exact_match_search_suffix h

/-- C2 witness: on the dictionary {b: 5} the word "b" is found with its
own entry. -/
theorem jieba_C2_exact_match_witness :
    ∃ id, jB.exact_match_search ['b'] = some id ∧
      ∃ r, jB.records.get? id = some r ∧ r.1 = ['b'] :=
  (jieba_C2_exact_match jB ['b'] (by decide)).1 ⟨(['b'], 5, ['v']), by decide, rfl⟩

/-- C3: for every dictionary, log map, HMM parameters, input and hmm flag,
the concatenation of the words of `cut` equals the input exactly, and the
empty input yields the empty word sequence. -/
theorem jieba_C3_concat (j : Jieba) (lg : Nat → ℤ) (hp : HmmParams)
    (s : List Char) (hmm : Bool) :
    joinL (j.cut lg hp s hmm) = s ∧ j.cut lg hp [] hmm = [] :=
  ⟨cut_internal_join j lg hp s hmm, rfl⟩

/-- C4: the default (no-HMM) cut scan over a block equals the spec's
state machine run over the step sequence `x = route[x].next`: single
ASCII-alphanumeric steps are collected into a pending span, any other step
flushes the pending span and is then emitted, and a pending span left at
the end of the block is emitted. -/
theorem jieba_C4_state_machine (j : Jieba) (lg : Nat → ℤ) (s : List Char) :
    j.cut_dag_no_hmm lg s =
      specScanNoHmm s
        (routeSteps (j.calcRoute lg s (j.dagOf s)) (byteLen s) s.length 0) none :=
  walkNoHmm_eq_specScan s _ s.length 0 none _ (cut_dag_no_hmm_run j lg s).1

/-- C5: the HMM cut scan equals the spec's state machine in which the
pending span collects every single-code-point step, and a flushed span is
emitted as one word when of length 1, handed to HMM Viterbi when it is
not an exact dictionary word, and emitted code point by code point when
it is. -/
theorem jieba_C5_hmm_scan (j : Jieba) (lg : Nat → ℤ) (hp : HmmParams) (s : List Char) :
    j.cut_dag_hmm lg hp s =
      specScanHmm j hp s
        (routeSteps (j.calcRoute lg s (j.dagOf s)) (byteLen s) s.length 0) none :=
  walkHmm_eq_specScan j hp s _ s.length 0 none _ (cut_dag_hmm_run j lg hp s).1

/-- C6 counterexample: with the dictionary {abc: 10, ab: 1}, `cut` returns
the single word "abc" of character length 3, yet `cut_for_search` emits
the extra 2-gram "ab" before it — so a word of length exactly 3 does
produce extras, contradicting the claim's final clause. -/
theorem jieba_C6_counterexample :
    jABC.cut lgId hp0 ['a', 'b', 'c'] false = [['a', 'b', 'c']] ∧
    jABC.cut_for_search lgId hp0 ['a', 'b', 'c'] false ≠ [['a', 'b', 'c']] := by decide

/-- C6 (amended): `cut_for_search` emits, before each word `w` of `cut`,
every dictionary-present 2-character substring (for all starts ascending)
when `w` is longer than 2 characters, then every dictionary-present
3-character substring when longer than 3, and every extra satisfies
`contains`; words of length exactly 2 produce no extras, and length-3
words produce no 3-gram extras (but may produce 2-gram extras). -/
theorem jieba_C6_search (j : Jieba) (lg : Nat → ℤ) (hp : HmmParams)
    (s : List Char) (hmm : Bool) :
    j.cut_for_search lg hp s hmm = catMap (specSearchEmit j) (j.cut lg hp s hmm) ∧
    ∀ w g x, x ∈ specGramExtras j w g → (j.exact_match_search x).isSome = true :=
  ⟨cut_for_search_eq_spec j lg hp s hmm,
    fun w g x hx => specGramExtras_contains j w g x hx⟩

/-- C6 witness: the 2-gram extra "ab" of the word "abc" passes the
`contains` test on the dictionary {abc: 10, ab: 1}. -/
theorem jieba_C6_search_witness :
    (jABC.exact_match_search ['a', 'b']).isSome = true :=
  (jieba_C6_search jABC lgId hp0 ['a', 'b', 'c'] false).2
    ['a', 'b', 'c'] 2 ['a', 'b'] (by decide)

/-- C7 counterexample: with the dictionary {b: 5, tag v}, `cut "ab"`
yields the merged ASCII word "ab", which is NOT a dictionary entry; the
claim then demands tag "eng", but `tag` consults `exact_match_search`,
whose suffix match "b" ends at the word's end, and so assigns the tag "v"
of the entry "b". -/
theorem jieba_C7_counterexample :
    jB.tag lgId hp0 ['a', 'b'] false = [(['a', 'b'], ['v'])] ∧
    (∀ r ∈ jB.records, r.1 ≠ ['a', 'b']) ∧
    (['v'] : List Char) ≠ ['e', 'n', 'g'] := by decide

/-- C7 (amended): `tag` returns exactly the word sequence of `cut`, and
assigns to each word the tag of the entry found by `exact_match_search`
when that returns `Some` (which is the word's own entry whenever the word
is in the dictionary, but may be a proper-suffix entry otherwise);
otherwise tag `x` when the word has no ASCII alphanumeric, `m` when all
its ASCII alphanumerics are digits, and `eng` otherwise. -/
theorem jieba_C7_tag (j : Jieba) (lg : Nat → ℤ) (hp : HmmParams)
    (s : List Char) (hmm : Bool) :
    j.tag lg hp s hmm = (j.cut lg hp s hmm).map (fun w => (w, specTagOf j w)) ∧
    (j.tag lg hp s hmm).map Prod.fst = j.cut lg hp s hmm := by
  refine ⟨tag_eq_spec j lg hp s hmm, ?_⟩
  rw [tag_eq_spec j lg hp s hmm, List.map_map]
  exact List.map_id _

/-- C8 counterexample: on the lexicon line "x a" (unparseable frequency
field "a") the construction PANICS — modelled by `none`, the absence of
any returned value — instead of returning a `DictionaryError` value as the
claim states; no error-return channel exists in the code. -/
theorem jieba_C8_counterexample :
    (Jieba.newFromLines [['x', ' ', 'a']]).isSome = false ∧
    lineMalformed ['x', ' ', 'a'] = true := by decide

/-- C8 (amended): construction succeeds exactly when no nonblank line has
an unparseable frequency field (on such a line it panics via `unwrap`
rather than returning an error value), and on success it skips blank
lines, defaults a missing frequency to 0 and a missing tag to the empty
string, and caches `total` as the frequency sum. -/
theorem jieba_C8_construction (lines : List (List Char)) :
    ((Jieba.newFromLines lines).isSome = true ↔
      ∀ line ∈ lines, lineMalformed line = false) ∧
    ((∀ line ∈ lines, lineMalformed line = false) →
      Jieba.newFromLines lines = some
        { records := lines.filterMap expectedRecord
          total := ((lines.filterMap expectedRecord).map (fun r => r.2.1)).sum
          longest_word_len := 0 }) :=
  ⟨newFromLines_isSome_iff lines, newFromLines_ok lines⟩

/-- C8 witness: a lexicon with a plain word line, a blank line and a full
line constructs the expected records with defaults applied. -/
theorem jieba_C8_construction_witness :
    Jieba.newFromLines [['w'], [], ['v', ' ', '3', ' ', 'n']] = some
      { records := [(['w'], 0, []), (['v'], 3, ['n'])]
        total := 3
        longest_word_len := 0 } :=
  ((jieba_C8_construction [['w'], [], ['v', ' ', '3', ' ', 'n']]).2
    (by decide)).trans (by decide)

/-- C9: the constructor computes the longest word length into a local
variable but stores the literal `0` in the struct: on the lexicon line
"ab 5" the stored `longest_word_len` is 0 while the maximum character
count over all words (which `new` computes locally and discards) is 2;
`total` is correctly the frequency sum 5. -/
theorem jieba_C9_longest_zero :
    Jieba.newFromLines [['a', 'b', ' ', '5']] =
      some { records := [(['a', 'b'], 5, [])], total := 5, longest_word_len := 0 } ∧
    localLongestWordLen [(['a', 'b'], 5, [])] = 2 ∧ (0 : Nat) ≠ 2 := by decide

/-- C10: for every block the route's next pointer strictly increases and
stays within the block at every code-point start, so both cut walks
terminate (complete within `s.length` iterations), and every word emitted
by `cut`, `cut_all`, `cut_for_search`, `tokenize` and `tag` is a nonempty
contiguous segment of the input. -/
theorem jieba_C10_termination (j : Jieba) (lg : Nat → ℤ) (hp : HmmParams) (s : List Char) :
    (∀ b ∈ charStarts s,
      b < (j.calcRoute lg s (j.dagOf s) b).2 ∧
      (j.calcRoute lg s (j.dagOf s) b).2 ≤ byteLen s) ∧
    (walkNoHmm s (j.calcRoute lg s (j.dagOf s)) s.length 0 none).isSome = true ∧
    (j.walkHmm hp s (j.calcRoute lg s (j.dagOf s)) s.length 0 none).isSome = true ∧
    (∀ hmm, ∀ w ∈ j.cut lg hp s hmm, w ≠ [] ∧ isSubsegment w s) ∧
    (∀ w ∈ j.cut_all s, w ≠ [] ∧ isSubsegment w s) ∧
    (∀ hmm, ∀ w ∈ j.cut_for_search lg hp s hmm, w ≠ [] ∧ isSubsegment w s) ∧
    (∀ mode hmm, ∀ t ∈ j.tokenize lg hp s mode hmm,
      t.word ≠ [] ∧ isSubsegment t.word s) ∧
    (∀ hmm, ∀ p ∈ j.tag lg hp s hmm, p.1 ≠ [] ∧ isSubsegment p.1 s) := by
  refine ⟨?_, ?_, ?_, ?_, ?_, ?_, ?_, ?_⟩
  · intro b hb
    rcases mem_charStarts.mp hb with ⟨k, hk, rfl⟩
    rcases calcRoute_progress j lg s k hk with ⟨k2, h1, h2, heq⟩
    rw [heq]
    exact ⟨byteLen_take_lt_of_lt h1 h2, byteLen_take_le s k2⟩
  · rw [(cut_dag_no_hmm_run j lg s).1] ; rfl
  · rw [(cut_dag_hmm_run j lg hp s).1] ; rfl
  · intro hmm ; exact cut_internal_props j lg hp s false hmm
  · exact cut_internal_props j _ _ s true false
  · intro hmm ; exact cut_for_search_props j lg hp s hmm
  · intro mode hmm
    exact tokenizeGo_props j mode s (j.cut lg hp s hmm) 0
      (cut_internal_props j lg hp s false hmm)
  · intro hmm p hpmem
    rw [tag_eq_spec] at hpmem
    rcases List.mem_map.mp hpmem with ⟨w, hw, rfl⟩
    exact cut_internal_props j lg hp s false hmm w hw

/-- C10 witness: the route of the block "abc" over the dictionary
{abc: 10, ab: 1} strictly advances from byte start 0 and stays within the
block. -/
theorem jieba_C10_termination_witness :
    (0 : Nat) < (jABC.calcRoute lgId ['a', 'b', 'c'] (jABC.dagOf ['a', 'b', 'c']) 0).2 ∧
    (jABC.calcRoute lgId ['a', 'b', 'c'] (jABC.dagOf ['a', 'b', 'c']) 0).2
      ≤ byteLen ['a', 'b', 'c'] :=
  (jieba_C10_termination jABC lgId hp0 ['a', 'b', 'c']).1 0 (by decide)
